import Mathlib

/-!
# Mandelbrot.c : a shallow embedding

The program keeps its state in globals (`ws`, `fl`, `rg`, `rg_def`, `enable_step`);
here they are the fields of `State` and every C function that touches them is a
function on `State`.

* `long double` arithmetic is carried out in `ℚ` (exact arithmetic; no rounding,
  no infinities, no NaN) in the functions on `State`. The functions with a rounding parameter
  (`range_parse_r`, `fill_range_r`, `fill_point_r`, `file_parse`, `args_parse`) compute with
  rounded values, infinities and NaN (`xreal`); `round_ld` and `round_d` are the roundings to
  `long double` and `double` of x86-64.
* `fl.point` (a `complex **`) is a total function from a row and a column index to a
  cell; `fl.rows` and `fl.cols` bound the part of it that the program owns.
* `for (size_t i = 0; i < n; i++)` is a left fold over `List.range n`.
* `unsigned short`, `size_t` and `char` values are naturals reduced modulo
  `2^16`, `2^64` and `2^8`.
* `exit` ends a call chain: a function that may reach `final` yields a `result`, the exit code
  or the return value with the default range.
* The terminal (`ioctl`), the files (`fopen`, `getline`) and the text scanner (`sscanf`) belong
  to the C library: the first two are parameters, the third is modelled after the GNU C
  library.
-/

namespace Mandelbrot

/-! ## Data model (Mandelbrot.c, lines 20-49 and 62-67) -/

/-- The `complex` struct: real part, imaginary part and the `int8_t` flag. -/
structure complex where
  r : ℚ
  i : ℚ
  flag : Int
deriving DecidableEq

/-- The `field` struct: the cell storage with its two dimensions. -/
structure field where
  point : Nat → Nat → complex
  rows : Nat
  cols : Nat

/-- The `range` struct: the visualised rectangle of the complex plane. -/
structure range where
  x1 : ℚ
  x2 : ℚ
  y1 : ℚ
  y2 : ℚ
deriving DecidableEq

/-- The two fields of `struct winsize` that the program reads. -/
structure winsize where
  ws_row : Nat
  ws_col : Nat
deriving DecidableEq

/-- The `error` enumeration, as the exit code it stands for. -/
def NORMAL : Nat := 0
def UNKNOWN_ARG : Nat := 1
def MISSING_PARAM : Nat := 2
def INCORRECT_RANGE : Nat := 3
def INCORRECT_FILE : Nat := 4

/-- The global variables of the program. -/
structure State where
  ws : winsize
  fl : field
  rg : range
  rg_def : range
  enable_step : Int

/-- The cell that `calloc` hands out: all bytes zero. -/
def zero_cell : complex := ⟨0, 0, 0⟩

/-- The globals as the initialisers of lines 63-67 leave them. -/
def initial : State where
  ws := ⟨0, 0⟩
  fl := ⟨fun _ _ => zero_cell, 0, 0⟩
  rg := ⟨0, 0, 0, 0⟩
  rg_def := ⟨-2.5, 1, 0, 0⟩
  enable_step := 1

/-- The assignment `p[i][j] = v`. -/
def setPoint (p : Nat → Nat → complex) (i j : Nat) (v : complex) : Nat → Nat → complex :=
  fun a b => if a = i ∧ b = j then v else p a b

/-! ## Complex arithmetic (lines 104-122) -/

/-- The function `c_add`; the flag of the result is not named by the initialiser, so it is 0. -/
def c_add (a b : complex) : complex :=
  { r := a.r + b.r, i := a.i + b.i, flag := 0 }

/-- The function `c_mul`. -/
def c_mul (a b : complex) : complex :=
  { r := a.r * b.r - a.i * b.i, i := a.r * b.i + a.i * b.r, flag := 0 }

/-- The function `c_abs`: the squared modulus. -/
def c_abs (a : complex) : ℚ :=
  a.r * a.r + a.i * a.i

/-! ## Terminal size and grid allocation (lines 125-129 and 176-188) -/

/-- The function `get_winsize`. The call `ioctl(0, TIOCGWINSZ, ws)` overwrites `ws` with the
size `term` that the terminal reports (two `unsigned short` fields); then one row is taken
off, in 16-bit unsigned arithmetic. -/
def get_winsize (term : winsize) (_ws : winsize) : winsize :=
  let ws : winsize := ⟨term.ws_row % 65536, term.ws_col % 65536⟩
  { ws with ws_row := (ws.ws_row + 65536 - 1) % 65536 }

/-- The function `field_init`: the old storage is released and a zeroed grid of
`ws_row << 2` rows and `ws_col << 1` columns is allocated. -/
def field_init (term : winsize) (s : State) : State :=
  let ws := get_winsize term s.ws
  { s with
    ws := ws
    fl := { point := fun _ _ => zero_cell
            rows := (ws.ws_row <<< 2) % 2 ^ 64
            cols := (ws.ws_col <<< 1) % 2 ^ 64 } }

/-! ## Filling and stepping the grid (lines 191-223) -/

/-- The body of the inner loop of `field_fill`. -/
def fill_body (rg : range) (dx dy : ℚ) (i : Nat) (p : Nat → Nat → complex) (j : Nat) :
    Nat → Nat → complex :=
  setPoint p i j { r := rg.x1 + ((j : ℚ) + 0.5) * dx, i := rg.y2 + ((i : ℚ) + 0.5) * dy, flag := 1 }

/-- The function `field_fill`. -/
def field_fill (s : State) : State :=
  let rg := s.rg_def
  let dx := (rg.x2 - rg.x1) / (s.fl.cols : ℚ)
  let rg :=
    if rg.y1 - rg.y2 = 0 then
      let ratio := 0.5 * (s.fl.rows : ℚ) / (s.fl.cols : ℚ) * (rg.x2 - rg.x1)
      let rg := { rg with y1 := rg.y1 - ratio }
      { rg with y2 := rg.y2 + ratio }
    else rg
  let dy := (rg.y1 - rg.y2) / (s.fl.rows : ℚ)
  let point :=
    (List.range s.fl.rows).foldl
      (fun p i => (List.range s.fl.cols).foldl (fill_body rg dx dy i) p) s.fl.point
  { s with rg := rg, fl := { s.fl with point := point } }

/-- The body of the inner loop of `field_step`: an escaped cell is skipped; a live one is
overwritten with `z*z + c` and then its flag is set from the squared modulus. -/
def step_body (rg : range) (dx dy : ℚ) (i : Nat) (p : Nat → Nat → complex) (j : Nat) :
    Nat → Nat → complex :=
  if (p i j).flag = 0 then p
  else
    let c : complex := { r := rg.x1 + ((j : ℚ) + 0.5) * dx, i := rg.y2 + ((i : ℚ) + 0.5) * dy, flag := 0 }
    let p := setPoint p i j (c_add (c_mul (p i j) (p i j)) c)
    setPoint p i j { p i j with flag := if c_abs (p i j) ≤ 4 then 1 else 0 }

/-- The function `field_step`. -/
def field_step (s : State) : State :=
  let dx := (s.rg.x2 - s.rg.x1) / (s.fl.cols : ℚ)
  let dy := (s.rg.y1 - s.rg.y2) / (s.fl.rows : ℚ)
  let point :=
    (List.range s.fl.rows).foldl
      (fun p i => (List.range s.fl.cols).foldl (step_body s.rg dx dy i) p) s.fl.point
  { s with fl := { s.fl with point := point } }

/-- The function `resize`. -/
def resize (term : winsize) (s : State) : State :=
  field_fill (field_init term s)

/-- The function `enable_toggle`. -/
def enable_toggle (s : State) : State :=
  { s with enable_step := if s.enable_step ≠ 0 then 0 else 1 }

/-! ## Rendering (lines 132-165) -/

/-- The bytes that `printf("%s", str)` writes: those before the first zero byte. -/
def printf_s (str : List Nat) : List Nat :=
  str.takeWhile (fun c => c != 0)

/-- The four bytes of `pattern` once the flags of the block at rows `i..i+3` and columns
`j..j+1` are added in (lines 141-151). A flag is promoted to `int` before the shift, and each
sum is stored back into a `char`. -/
def pattern (p : Nat → Nat → complex) (i j : Nat) : List Nat :=
  let pattern0 : Int := 0xE2
  let pattern1 : Int := 0xA0
  let pattern2 : Int := 0x80
  let pattern2 : Int :=
    (pattern2 +
      ((p i j).flag * 2 ^ 0 +
       (p (i + 1) j).flag * 2 ^ 1 +
       (p (i + 2) j).flag * 2 ^ 2 +
       (p i (j + 1)).flag * 2 ^ 3 +
       (p (i + 1) (j + 1)).flag * 2 ^ 4 +
       (p (i + 2) (j + 1)).flag * 2 ^ 5)) % 256
  let pattern1 : Int :=
    (pattern1 +
      ((p (i + 3) j).flag * 2 ^ 0 +
       (p (i + 3) (j + 1)).flag * 2 ^ 1)) % 256
  [pattern0.toNat, pattern1.toNat, pattern2.toNat, 0]

/-- What `field_out` hands to the terminal: the bytes written up to the status line, and the
four numbers that the last `printf` formats into the status line. -/
structure output where
  text : List Nat
  x0 : ℚ
  dx : ℚ
  y0 : ℚ
  dy : ℚ

/-- The glyphs of a frame: one list per pass of the outer loop of `field_out` (`i` runs over
0, 4, 8, ... below `rows`), holding what each pass of the inner loop prints (`j` runs over
0, 2, 4, ... below `cols`). -/
def field_out_lines (s : State) : List (List (List Nat)) :=
  (List.range ((s.fl.rows + 3) / 4)).map fun bi =>
    (List.range ((s.fl.cols + 1) / 2)).map fun bj =>
      printf_s (pattern s.fl.point (4 * bi) (2 * bj))

/-- The function `field_out`: cursor home, then every line of glyphs followed by a newline,
then the status line. -/
def field_out (s : State) : output where
  text := [27, 91, 48, 59, 48, 72]
    ++ ((field_out_lines s).map fun line => line.flatten ++ [10]).flatten
  x0 := (s.rg.x1 + s.rg.x2) * 0.5
  y0 := (s.rg.y1 + s.rg.y2) * 0.5
  dx := (s.rg.x2 - s.rg.x1) * 0.5
  dy := (s.rg.y2 - s.rg.y1) * 0.5

/-- The bytes of the UTF-8 encoding of the code point `n`. -/
def utf8 (n : Nat) : List Nat :=
  (String.utf8EncodeChar (Char.ofNat n)).map UInt8.toNat

/-- The cells whose flag one pass of the inner loop of `field_out` reads, for the block at
rows `i..i+3` and columns `j..j+1`, in the order of lines 143-151. -/
def pattern_reads (i j : Nat) : List (Nat × Nat) :=
  [(i, j), (i + 1, j), (i + 2, j), (i, j + 1), (i + 1, j + 1), (i + 2, j + 1),
   (i + 3, j), (i + 3, j + 1)]

/-- A `long double` with the two kinds of values that are not numbers of the plane: the
infinities `inf` (`neg` for the negative one) and `nan`. Zero has no sign here. -/
inductive xreal where
  | fin (q : ℚ)
  | inf (neg : Bool)
  | nan
deriving DecidableEq

/-- Negation of a `long double`. -/
def xreal.neg : xreal → xreal
  | .fin q => .fin (-q)
  | .inf n => .inf (!n)
  | .nan => .nan

/-- The exact sum of two `long double`s (IEEE 754: opposite infinities give `nan`). -/
def xreal.add : xreal → xreal → xreal
  | .fin a, .fin b => .fin (a + b)
  | .fin _, .inf n => .inf n
  | .inf m, .fin _ => .inf m
  | .inf m, .inf n => if m = n then .inf m else .nan
  | .nan, _ => .nan
  | _, .nan => .nan

/-- The exact difference of two `long double`s. -/
def xreal.sub (a b : xreal) : xreal :=
  a.add b.neg

/-- The exact product of two `long double`s (IEEE 754: zero times infinity gives `nan`). -/
def xreal.mul : xreal → xreal → xreal
  | .fin a, .fin b => .fin (a * b)
  | .fin a, .inf n => if a = 0 then .nan else .inf (xor (decide (a < 0)) n)
  | .inf m, .fin b => if b = 0 then .nan else .inf (xor m (decide (b < 0)))
  | .inf m, .inf n => .inf (xor m n)
  | .nan, _ => .nan
  | _, .nan => .nan

/-- The value that is stored when the exact result of an operation is `v`. -/
def rounded (rnd : ℚ → xreal) : xreal → xreal
  | .fin q => rnd q
  | v => v

/-- Counts the binary digits of `n` on top of `acc`; the first argument bounds the recursion. -/
def bits_aux : Nat → Nat → Nat → Nat
  | 0, _, acc => acc
  | fuel + 1, n, acc => if n = 0 then acc else bits_aux fuel (n / 2) (acc + 1)

/-- The number of binary digits of `n`. -/
def bits (n : Nat) : Nat :=
  bits_aux n n 0

/-- Whether `2 ^ e ≤ n / d`. -/
def ge_pow2 (n d : Nat) (e : Int) : Bool :=
  if 0 ≤ e then decide (d * 2 ^ e.toNat ≤ n) else decide (d ≤ n * 2 ^ (-e).toNat)

/-- The binary exponent of the fraction `n / d` with `0 < n` and `0 < d`: the integer `e` with
`2 ^ e ≤ n / d < 2 ^ (e + 1)`. -/
def ilog2 (n d : Nat) : Int :=
  let e : Int := (bits n : Int) - (bits d : Int)
  if ge_pow2 n d e then e else e - 1

/-- Rounding of the positive fraction `n / d` to a binary floating-point format with `p`
significant bits and exponents from `emin` to `emax`, to the nearest value, ties to the even
significand (IEEE 754, `roundTiesToEven`): the result `(m, sh)` stands for `m / 2 ^ sh`, and
`none` for an overflow (a result of `2 ^ (emax + 1)` or more). Below `2 ^ emin` the values of
the format are spaced like those just above it. -/
def round_nat (p : Nat) (emin emax : Int) (n d : Nat) : Option (Nat × Int) :=
  let e := max (ilog2 n d) emin
  let sh : Int := (p : Int) - 1 - e
  let N := if 0 ≤ sh then n * 2 ^ sh.toNat else n
  let D := if 0 ≤ sh then d else d * 2 ^ (-sh).toNat
  let m0 := N / D
  let r := N % D
  let m :=
    if 2 * r < D then m0
    else if D < 2 * r then m0 + 1
    else if m0 % 2 = 0 then m0 else m0 + 1
  if emax < e ∨ (e = emax ∧ m = 2 ^ p) then none else some (m, sh)

/-- Rounding of a number to a binary floating-point format with `p` significant bits and
exponents from `emin` to `emax`: the magnitude is rounded by `round_nat`, an overflow gives
an infinity. -/
def round_binary (p : Nat) (emin emax : Int) (q : ℚ) : xreal :=
  if q = 0 then .fin 0
  else
    match round_nat p emin emax q.num.natAbs q.den with
    | none => .inf (decide (q < 0))
    | some (m, sh) =>
      let v : ℚ := if 0 ≤ sh then (m : ℚ) / 2 ^ sh.toNat else (m : ℚ) * 2 ^ (-sh).toNat
      .fin (if q < 0 then -v else v)

/-- Rounding to `long double` as x86-64 has it: 64 significant bits, exponents from -16382 to
16383. -/
def round_ld (q : ℚ) : xreal :=
  round_binary 64 (-16382) 16383 q

/-- Rounding to `double`: 53 significant bits, exponents from -1022 to 1023. -/
def round_d (q : ℚ) : xreal :=
  round_binary 53 (-1022) 1023 q

/-- The function `isspace` of the C locale. -/
def isspace (c : Char) : Bool :=
  c.toNat == 32 || (9 ≤ c.toNat && c.toNat ≤ 13)

/-- The function `isdigit`. -/
def isdigit (c : Char) : Bool :=
  48 ≤ c.toNat && c.toNat ≤ 57

/-- The function `tolower` of the C locale. -/
def tolower (c : Char) : Char :=
  if 65 ≤ c.toNat ∧ c.toNat ≤ 90 then Char.ofNat (c.toNat + 32) else c

/-- The function `isxdigit`. -/
def isxdigit (c : Char) : Bool :=
  isdigit c || (97 ≤ (tolower c).toNat && (tolower c).toNat ≤ 102)

/-- Reads decimal digits: `m` is the number read so far, `n` counts the digits. -/
def scan_digits : List Char → Nat → Nat → Nat × Nat × List Char
  | [], m, n => (m, n, [])
  | c :: cs, m, n =>
    if isdigit c then scan_digits cs (10 * m + (c.toNat - 48)) (n + 1) else (m, n, c :: cs)

/-- Reads hexadecimal digits: `m` is the number read so far, `n` counts the digits. -/
def scan_xdigits : List Char → Nat → Nat → Nat × Nat × List Char
  | [], m, n => (m, n, [])
  | c :: cs, m, n =>
    if isdigit c then scan_xdigits cs (16 * m + (c.toNat - 48)) (n + 1)
    else if isxdigit c then scan_xdigits cs (16 * m + ((tolower c).toNat - 87)) (n + 1)
    else (m, n, c :: cs)

/-- Mantissa: digits, optionally with one decimal point among them; at least one digit. The
result is the digit string read as a natural number, the number of digits after the point
and the rest of the input. -/
def scan_mantissa (body : List Char) : Option (Nat × Nat × List Char) :=
  let r := scan_digits body 0 0
  match r.2.2 with
  | [] => if r.2.1 = 0 then none else some (r.1, 0, [])
  | p :: rest =>
    if p = '.' then
      let r2 := scan_digits rest r.1 0
      if r.2.1 + r2.2.1 = 0 then none else some (r2.1, r2.2.1, r2.2.2)
    else if r.2.1 = 0 then none else some (r.1, 0, p :: rest)

/-- The mantissa of a hexadecimal number, after its `0x`. -/
def scan_xmantissa (body : List Char) : Option (Nat × Nat × List Char) :=
  let r := scan_xdigits body 0 0
  match r.2.2 with
  | [] => if r.2.1 = 0 then none else some (r.1, 0, [])
  | p :: rest =>
    if p = '.' then
      let r2 := scan_xdigits rest r.1 0
      if r.2.1 + r2.2.1 = 0 then none else some (r2.1, r2.2.1, r2.2.2)
    else if r.2.1 = 0 then none else some (r.1, 0, p :: rest)

/-- The exponent after a mantissa: the exponent letter (`e`, or `p` after a hexadecimal
mantissa), an optional sign and decimal digits. Without a digit there is no exponent. -/
def scan_exponent (letter : Char) (inp : List Char) : Option Int :=
  match inp with
  | [] => none
  | e :: r =>
    if tolower e = letter then
      let signed : Bool × List Char :=
        match r with
        | [] => (false, r)
        | c :: cs => if c = '-' then (true, cs) else if c = '+' then (false, cs) else (false, r)
      let ds := scan_digits signed.2 0 0
      if ds.2.1 = 0 then none
      else some (if signed.1 then -(ds.1 : Int) else (ds.1 : Int))
    else none

/-- The mantissa `v` with the exponent `x` to the base `b` applied. -/
def scale (v : ℚ) (b : ℚ) (x : Option Int) : ℚ :=
  match x with
  | none => v
  | some k => if 0 ≤ k then v * b ^ k.toNat else v / b ^ (-k).toNat

/-- The mantissa of the hexadecimal number at the start of `body`, if `body` starts with `0x`
or `0X` and a hexadecimal mantissa. -/
def hex_mantissa (body : List Char) : Option (Nat × Nat × List Char) :=
  match body with
  | z :: x :: r => if z = '0' ∧ tolower x = 'x' then scan_xmantissa r else none
  | _ => none

/-- The exact value of the number at the start of `buf`, as `strtold` reads it: an optional
sign, then `inf`, `nan`, a hexadecimal number or a decimal number, in any letter case; `none`
when there is no number. -/
def strtold (buf : List Char) : Option xreal :=
  let signed : Bool × List Char :=
    match buf with
    | [] => (false, buf)
    | c :: cs => if c = '-' then (true, cs) else if c = '+' then (false, cs) else (false, buf)
  let neg := signed.1
  let body := signed.2
  if (body.take 3).map tolower = ['i', 'n', 'f'] then some (.inf neg)
  else if (body.take 3).map tolower = ['n', 'a', 'n'] then some .nan
  else
    match hex_mantissa body with
    | some (m, nfrac, r2) =>
      let v : ℚ := scale ((m : ℚ) / 16 ^ nfrac) 2 (scan_exponent 'p' r2)
      some (.fin (if neg then -v else v))
    | none =>
      match scan_mantissa body with
      | none => none
      | some (m, nfrac, r2) =>
        let v : ℚ := scale ((m : ℚ) / 10 ^ nfrac) 10 (scan_exponent 'e' r2)
        some (.fin (if neg then -v else v))

/-- What the scanner of `%Lf` has seen so far: a `0x` (`hex`), a digit, a point (or an
exponent letter, after which no point may come), an exponent letter, and whether the exponent
letter was the last character (`at_exp`: a sign may follow). -/
structure lexer where
  hex : Bool
  got_digit : Bool
  got_dot : Bool
  got_e : Bool
  at_exp : Bool

/-- The characters that `%Lf` collects for a number, one at a time, until one cannot continue
the number: digits, hexadecimal digits after `0x` and before the exponent, a sign right after
the exponent letter, one exponent letter after a digit, one point before the exponent. The
result is the collected text and the rest of the input. -/
def collect : List Char → lexer → List Char → List Char × List Char
  | [], _, buf => (buf, [])
  | c :: cs, st, buf =>
    if isdigit c then
      collect cs { st with got_digit := true, at_exp := false } (buf ++ [c])
    else if !st.got_e && st.hex && isxdigit c then
      collect cs { st with got_digit := true, at_exp := false } (buf ++ [c])
    else if st.got_e && st.at_exp && (c == '-' || c == '+') then
      collect cs { st with at_exp := false } (buf ++ [c])
    else if st.got_digit && !st.got_e && tolower c == (if st.hex then 'p' else 'e') then
      collect cs { st with got_e := true, got_dot := true, at_exp := true }
        (buf ++ [if st.hex then 'p' else 'e'])
    else if !st.got_dot && c == '.' then
      collect cs { st with got_dot := true, at_exp := false } (buf ++ ['.'])
    else (buf, c :: cs)

/-- The input must go on with the given lower-case letters, in either case. -/
def expect : List Char → List Char → Option (List Char)
  | [], inp => some inp
  | _ :: _, [] => none
  | l :: ls, c :: cs => if tolower c = l then expect ls cs else none

/-- Where the collection of a number starts, for the input `c :: cs` after the sign: a leading
`0` is taken at once, together with an `x` or `X` that follows it. The result is what has
been seen, the collected text and the input that is left. -/
def collect_start (sign : List Char) (c : Char) (cs : List Char) :
    lexer × List Char × List Char :=
  if c = '0' then
    match cs with
    | [] => (⟨false, true, false, false, false⟩, sign ++ [c], cs)
    | x :: more =>
      if tolower x = 'x' then (⟨true, false, false, false, false⟩, sign ++ [c, x], more)
      else (⟨false, true, false, false, false⟩, sign ++ [c], cs)
  else (⟨false, false, false, false, false⟩, sign, c :: cs)

/-- The text that `%Lf` collects after the sign, with the rest of the input: `nan`, `inf` or
`infinity` letter by letter (a word that breaks off is a matching failure), or the characters
of a number; `none` is a matching failure: nothing was collected, or only `0x`. -/
def collect_body (sign : List Char) (body : List Char) : Option (List Char × List Char) :=
  match body with
  | [] => none
  | c :: cs =>
    if tolower c = 'n' then
      match expect ['a', 'n'] cs with
      | none => none
      | some rest => some (sign ++ (c :: cs).take 3, rest)
    else if tolower c = 'i' then
      match expect ['n', 'f'] cs with
      | none => none
      | some rest =>
        match rest with
        | [] => some (sign ++ (c :: cs).take 3, rest)
        | i :: more =>
          if tolower i = 'i' then
            match expect ['n', 'i', 't', 'y'] more with
            | none => none
            | some rest2 => some (sign ++ (c :: cs).take 8, rest2)
          else some (sign ++ (c :: cs).take 3, rest)
    else
      let start := collect_start sign c cs
      let r := collect start.2.2 start.1 start.2.1
      if r.1.length = sign.length then none
      else if start.1.hex ∧ r.1.length = 2 + sign.length then none
      else some r

/-- What a `%Lf` conversion makes of the input: a number was read (`ok`, with its exact value
and the rest of the input), the input does not start with a number (`nomatch`), or the input
has ended (`eof`). -/
inductive scan where
  | ok (v : xreal) (rest : List Char)
  | nomatch
  | eof
deriving DecidableEq

/-- The conversion `%Lf`: white space is skipped, a sign and the characters of a number are
collected, and `strtold` gives the value of what was collected. -/
def scan_Lf (inp : List Char) : scan :=
  match inp.dropWhile isspace with
  | [] => .eof
  | c :: cs =>
    let parts : Option (List Char × List Char) :=
      if c = '-' ∨ c = '+' then collect_body [c] cs else collect_body [] (c :: cs)
    match parts with
    | none => .nomatch
    | some (buf, rest) =>
      match strtold buf with
      | none => .nomatch
      | some v => .ok v rest

/-- A directive of a `scanf` format: an ordinary character, or the conversion `%Lf`. -/
inductive directive where
  | lit (c : Char)
  | Lf
deriving DecidableEq

/-- The directives of a format string in which every `%` starts a `%Lf` and no white space
occurs, as in the two formats of `range_parse`. -/
def directives : List Char → List directive
  | '%' :: 'L' :: 'f' :: r => .Lf :: directives r
  | c :: r => .lit c :: directives r
  | [] => []

/-- The directives are executed in turn on the input. The result is the return value of
`sscanf` with the values assigned so far: the number of assignments, or `EOF` (-1) when the
input ends before the first conversion is complete. -/
def sscanf_go : List directive → List Char → List xreal → Int × List xreal
  | [], _, vals => (vals.length, vals)
  | .lit c :: fmt, inp, vals =>
    match inp with
    | [] => (if vals.isEmpty then -1 else vals.length, vals)
    | a :: rest => if a = c then sscanf_go fmt rest vals else (vals.length, vals)
  | .Lf :: fmt, inp, vals =>
    match scan_Lf inp with
    | .ok v rest => sscanf_go fmt rest (vals ++ [v])
    | .nomatch => (vals.length, vals)
    | .eof => (if vals.isEmpty then -1 else vals.length, vals)

/-- The library function `sscanf`, for the formats above: the return value and the exact
values of the numbers that were read, in the order of the conversions. -/
def sscanf (str : List Char) (format : String) : Int × List xreal :=
  sscanf_go (directives format.toList) str []

/-- The four `long double`s of a `range` struct, infinities and `nan` included. -/
structure xrange where
  x1 : xreal
  x2 : xreal
  y1 : xreal
  y2 : xreal
deriving DecidableEq

/-- A range of numbers as four `long double`s. -/
def range.toX (r : range) : xrange :=
  ⟨.fin r.x1, .fin r.x2, .fin r.y1, .fin r.y2⟩

/-- The range of numbers that four `long double`s make, if all four are numbers. -/
def xrange.toRange (b : xrange) : Option range :=
  match b.x1, b.x2, b.y1, b.y2 with
  | .fin x1, .fin x2, .fin y1, .fin y2 => some ⟨x1, x2, y1, y2⟩
  | _, _, _, _ => none

/-- The function `range_parse`, as it acts on the global `rg_def` (the only global that it
writes): the return value and `rg_def` at the end. The variables `x1`, `x2`, `y1`, `y2` and
`w` hold what `sscanf` stored, rounded to `long double`; the product and the sums of line 254
are rounded in turn. -/
def range_parse_r (rnd : ℚ → xreal) (arg : List Char) (d : xrange) : Int × xrange :=
  let r := sscanf arg "x:%Lf..%Lf/y:%Lf..%Lf"
  if r.1 = 4 then
    let x1 := rounded rnd (r.2.getD 0 .nan)
    let x2 := rounded rnd (r.2.getD 1 .nan)
    let y1 := rounded rnd (r.2.getD 2 .nan)
    let y2 := rounded rnd (r.2.getD 3 .nan)
    (0, ⟨x1, x2, y1, y2⟩)
  else
    let r := sscanf arg "c:%Lf+%Lfi/w:%Lf"
    if r.1 = 3 then
      let x1 := rounded rnd (r.2.getD 0 .nan)
      let y1 := rounded rnd (r.2.getD 1 .nan)
      let w := rounded rnd (r.2.getD 2 .nan)
      let half := rounded rnd (w.mul (.fin 0.5))
      (0, ⟨rounded rnd (x1.sub half), rounded rnd (x1.add half), y1, y1⟩)
    else (1, d)

/-- The function `range_parse` in exact real arithmetic, on the globals. `none`: one of the
four bounds that the text gives is an infinity or `nan`, which the `range` of numbers in
`State` cannot hold; `range_parse_r` has the bounds in that case. -/
def range_parse (arg : List Char) (s : State) : Option (Int × State) :=
  let r := range_parse_r xreal.fin arg s.rg_def.toX
  match r.2.toRange with
  | none => none
  | some d => some (r.1, { s with rg_def := d })

/-! ## Filling in floating-point arithmetic (lines 193-205)

`field_fill` above computes in exact real arithmetic. The two functions below are the same
lines with the rounding of every operation: `rl` rounds to `long double` and `rd` to `double`.
By the usual arithmetic conversions `0.5 * fl.rows / fl.cols` and `i + 0.5`, `j + 0.5` are
computed in `double` and every other operation in `long double`; an integer operand is
converted to the type of the operation first. -/

/-- The exact quotient of two `long double`s. A zero divisor stands for the positive zero that
the conversion of an unsigned integer gives (IEEE 754: a number other than zero over zero is an
infinity, zero over zero is `nan`). -/
def xreal.div : xreal → xreal → xreal
  | .fin a, .fin b =>
    if b = 0 then (if a = 0 then .nan else .inf (decide (a < 0))) else .fin (a / b)
  | .fin _, .inf _ => .fin 0
  | .inf m, .fin b => .inf (xor m (decide (b < 0)))
  | .inf _, .inf _ => .nan
  | .nan, _ => .nan
  | _, .nan => .nan

/-- The comparison `v == 0`. -/
def xreal.is_zero : xreal → Bool
  | .fin q => decide (q = 0)
  | _ => false

/-- The active range that `field_fill` computes from the default range `d` (lines 193 and
196-201). -/
def fill_range_r (rl rd : ℚ → xreal) (d : xrange) (rows cols : Nat) : xrange :=
  if (rounded rl (d.y1.sub d.y2)).is_zero then
    let half_rows := rounded rd ((xreal.fin 0.5).mul (rd rows))
    let quot := rounded rd (half_rows.div (rd cols))
    let ratio := rounded rl (quot.mul (rounded rl (d.x2.sub d.x1)))
    { d with y1 := rounded rl (d.y1.sub ratio), y2 := rounded rl (d.y2.add ratio) }
  else d

/-- The real and the imaginary part that `field_fill` writes to the cell `(i, j)` (lines 195
and 202-205). -/
def fill_point_r (rl rd : ℚ → xreal) (d : xrange) (rows cols i j : Nat) : xreal × xreal :=
  let dx := rounded rl ((rounded rl (d.x2.sub d.x1)).div (rl cols))
  let rg := fill_range_r rl rd d rows cols
  let dy := rounded rl ((rounded rl (rg.y1.sub rg.y2)).div (rl rows))
  (rounded rl (rg.x1.add (rounded rl ((rounded rd ((rd j).add (.fin 0.5))).mul dx))),
   rounded rl (rg.y2.add (rounded rl ((rounded rd ((rd i).add (.fin 0.5))).mul dy))))

/-! ## Command line (lines 78-101 and 264-323)

`final` ends the process with an exit code, so a function that may call it yields either the
exit code or its return value. `args_parse` and `file_parse` write no global but `rg_def`,
through `range_parse`; they are modelled on `rg_def`, like `range_parse_r`, with the rounding
`rnd` of `long double` as a parameter. The files that `fopen` can see are a parameter too. -/

/-- How a call ends: in `final`, with the exit code of the process, or by returning `v` with
the global `rg_def` equal to `d`. -/
inductive result (α : Type) where
  | exit (code : Nat) : result α
  | ret (v : α) (d : xrange) : result α

/-- The function `final`: a message is printed, the echo is restored and the process exits
with `code`. -/
def final {α : Type} (code : Nat) : result α :=
  .exit code

/-- What `fopen` and `getline` find under a path: nothing that can be opened (`missing`), a
file from which nothing can be read (`unreadable`), or a file with its content. -/
inductive file where
  | missing
  | unreadable
  | text (content : List Char)

/-- The first line of a text, with its newline character if there is one. -/
def first_line : List Char → List Char
  | [] => []
  | c :: cs => if c = Char.ofNat 10 then [c] else c :: first_line cs

/-- The library function `getline` at the start of a file: `none` stands for the return value
-1 (nothing left to read), otherwise the buffer holds the first line. -/
def getline (content : List Char) : Option (List Char) :=
  match content with
  | [] => none
  | c :: cs => some (first_line (c :: cs))

/-- The C string that starts at the beginning of a buffer: the characters before the first
zero byte. -/
def c_str (buf : List Char) : List Char :=
  buf.takeWhile fun c => c != Char.ofNat 0

/-- The function `file_parse`. -/
def file_parse (rnd : ℚ → xreal) (fs : List Char → file) (arg : List Char) (d : xrange) :
    result Int :=
  match fs arg with
  | .missing => .ret 1 d
  | .unreadable => .ret 1 d
  | .text content =>
    match getline content with
    | none => .ret 1 d
    | some buf =>
      let r := range_parse_r rnd (c_str buf) d
      if r.1 ≠ 0 then final INCORRECT_RANGE else .ret 0 r.2

/-- The loop of `args_parse`, on the arguments `argv[i], argv[i+1], ...` that are left. -/
def args_loop (rnd : ℚ → xreal) (fs : List Char → file) :
    List (List Char) → xrange → result Unit
  | [], d => .ret () d
  | a :: rest, d =>
    if a = "-r".toList ∨ a = "--range".toList then
      match rest with
      | [] => final MISSING_PARAM
      | v :: rest2 =>
        let r := range_parse_r rnd v d
        if r.1 ≠ 0 then final INCORRECT_RANGE else args_loop rnd fs rest2 r.2
    else if a = "-f".toList ∨ a = "--file".toList then
      match rest with
      | [] => final MISSING_PARAM
      | v :: rest2 =>
        match file_parse rnd fs v d with
        | .exit code => .exit code
        | .ret r d2 => if r ≠ 0 then final INCORRECT_FILE else args_loop rnd fs rest2 d2
    else if a = "-h".toList ∨ a = "--help".toList then final NORMAL
    else final UNKNOWN_ARG

/-- The function `args_parse`: the loop starts at `argv[1]`. -/
def args_parse (rnd : ℚ → xreal) (fs : List Char → file) (argv : List (List Char))
    (d : xrange) : result Unit :=
  args_loop rnd fs (argv.drop 1) d

/-- The argument lists made of well-formed pairs only: `-r`/`--range` with a text that
`range_parse` accepts, or `-f`/`--file` with a file whose first line `range_parse` accepts;
`accepted rnd fs args d t` says so for `args` read when `rg_def` is `d`, and `t` is `rg_def`
at the end. -/
inductive accepted (rnd : ℚ → xreal) (fs : List Char → file) :
    List (List Char) → xrange → xrange → Prop where
  | done (d : xrange) : accepted rnd fs [] d d
  | range (a v : List Char) (rest : List (List Char)) (d d2 t : xrange) :
      (a = "-r".toList ∨ a = "--range".toList) →
      range_parse_r rnd v d = (0, d2) →
      accepted rnd fs rest d2 t → accepted rnd fs (a :: v :: rest) d t
  | file (a v content buf : List Char) (rest : List (List Char)) (d d2 t : xrange) :
      (a = "-f".toList ∨ a = "--file".toList) →
      fs v = .text content → getline content = some buf →
      range_parse_r rnd (c_str buf) d = (0, d2) →
      accepted rnd fs rest d2 t → accepted rnd fs (a :: v :: rest) d t

/-- A file system with two files: `range.txt`, whose first line is not a range text, and
`empty.txt`, which is empty. -/
def one_file (path : List Char) : file :=
  if path = "range.txt".toList then .text ("hello".toList ++ [Char.ofNat 10] ++ "x:0.5..1/y:0.5..1".toList)
  else if path = "empty.txt".toList then .text []
  else .missing

/-! ## Decimal literals -/

/-- A decimal literal: an optional minus sign, one or more digits, and optionally a point
followed by one or more digits (`frac = []` stands for a literal without a point). -/
structure decimal where
  neg : Bool
  d0 : Fin 10
  ds : List (Fin 10)
  frac : List (Fin 10)

/-- The character of a digit. -/
def digit_char (d : Fin 10) : Char := Char.ofNat (48 + d.val)

/-- The digits read as a decimal number, continuing from `m`. -/
def digits_val (ds : List (Fin 10)) (m : Nat) : Nat :=
  ds.foldl (fun m d => 10 * m + d.val) m

/-- The text of a decimal literal. -/
def decimal.text (a : decimal) : List Char :=
  (if a.neg then ['-'] else []) ++ (a.d0 :: a.ds).map digit_char
    ++ (if a.frac.isEmpty then [] else '.' :: a.frac.map digit_char)

/-- The number that a decimal literal denotes. -/
def decimal.val (a : decimal) : ℚ :=
  let v : ℚ := (digits_val (a.d0 :: a.ds ++ a.frac) 0 : ℚ) / 10 ^ a.frac.length
  if a.neg then -v else v

/-- The character, if any, at which a `%Lf` conversion that has read a decimal literal stops. -/
def stops (has_point : Bool) (rest : List Char) : Prop :=
  ∀ c ∈ rest.head?, isdigit c = false ∧ c ≠ 'e' ∧ c ≠ 'E'
    ∧ (has_point = false → c ≠ '.' ∧ c ≠ 'x' ∧ c ≠ 'X')

/-! ## The states of a run -/

/-- The flag of every cell of the grid is 0 or 1. -/
def two_valued (s : State) : Prop :=
  ∀ a b, a < s.fl.rows → b < s.fl.cols → (s.fl.point a b).flag = 0 ∨ (s.fl.point a b).flag = 1

/-- The states that the program is in from its first `field_init` on: `main` and the signal
handlers change the globals only through `field_init`, `field_fill`, `field_step` and
`enable_toggle`. -/
inductive running : State → Prop where
  | init (term : winsize) (s : State) : running (field_init term s)
  | fill (s : State) : running s → running (field_fill s)
  | step (s : State) : running s → running (field_step s)
  | toggle (s : State) : running s → running (enable_toggle s)

/-! ## The loops, cell by cell -/

/-- What one pass of the inner loop of `field_step` does to the cell it visits. -/
def step_cell (rg : range) (dx dy : ℚ) (i j : Nat) (z : complex) : complex :=
  if z.flag = 0 then z
  else
    let w := c_add (c_mul z z) { r := rg.x1 + ((j : ℚ) + 0.5) * dx, i := rg.y2 + ((i : ℚ) + 0.5) * dy, flag := 0 }
    { w with flag := if c_abs w ≤ 4 then 1 else 0 }

/-- What one pass of the inner loop of `field_fill` writes into the cell it visits. -/
def fill_cell (rg : range) (dx dy : ℚ) (i j : Nat) (_z : complex) : complex :=
  { r := rg.x1 + ((j : ℚ) + 0.5) * dx, i := rg.y2 + ((i : ℚ) + 0.5) * dy, flag := 1 }

/-- The active range that `field_fill` derives from the default range and the grid size. -/
def fill_range (d : range) (rows cols : Nat) : range :=
  if d.y1 - d.y2 = 0 then
    { x1 := d.x1, x2 := d.x2
      y1 := d.y1 - 0.5 * (rows : ℚ) / (cols : ℚ) * (d.x2 - d.x1)
      y2 := d.y2 + 0.5 * (rows : ℚ) / (cols : ℚ) * (d.x2 - d.x1) }
  else d

/-! ## The point of the plane that belongs to a cell (spec, section 4.1) -/

/-- Real part of the spec's `pointAt`: `x1 + (col + 0.5)·(x2 - x1)/cols`. -/
def pointAt_re (rg : range) (cols col : Nat) : ℚ :=
  rg.x1 + ((col : ℚ) + 0.5) * (rg.x2 - rg.x1) / (cols : ℚ)

/-- Imaginary part of the spec's `pointAt`: `y2 - (row + 0.5)·(y2 - y1)/rows`. -/
def pointAt_im (rg : range) (rows row : Nat) : ℚ :=
  rg.y2 - ((row : ℚ) + 0.5) * (rg.y2 - rg.y1) / (rows : ℚ)

/-! ## Concrete states -/

/-- The program state after `field_init` on a terminal of 2 rows and 1 column, started from
the initial globals: a zeroed grid of 4 rows and 2 columns. -/
def tiny : State := field_init ⟨2, 1⟩ initial

/-- The 4-row by 2-column grid filled from the bounds `(-1, 1, -1, 1)`. -/
def square : State := field_fill { tiny with rg_def := ⟨-1, 1, -1, 1⟩ }

/-- The zeroed 4-row by 2-column grid with the default bounds `(-1, 1, 1, -1)`, whose vertical
bounds are given in descending order. -/
def flipped : State := { tiny with rg_def := ⟨-1, 1, 1, -1⟩ }

/-- The program state after `field_init` on a terminal of 2 rows and 4 columns, with the default
bounds `x1 = -2`, `x2 = 1`, `y1 = y2 = 0`: a zeroed grid of 4 rows and 8 columns. -/
def wide : State := field_init ⟨2, 4⟩ { initial with rg_def := ⟨-2, 1, 0, 0⟩ }

/-- The zeroed 4-row by 2-column grid with the default bounds `(-0.5, 1.5, -3.5, 0.5)`: the
cell `(0, 0)` lies at the origin of the plane. -/
def centred : State := { tiny with rg_def := ⟨-0.5, 1.5, -3.5, 0.5⟩ }

/-- The grid `square` with the cell `(1, 1)` overwritten: the same dimensions and active range,
another content. -/
def square_poked : State :=
  { square with fl := { square.fl with point := setPoint square.fl.point 1 1 ⟨9, 9, 1⟩ } }

/-! # Theorems -/

/-! ## Loops that update one cell per iteration -/

theorem setPoint_self (p : Nat → Nat → complex) (i j : Nat) (v : complex) :
    setPoint p i j v i j = v := by
  simp [setPoint]

theorem foldl_cells_inner (g : Nat → Nat → complex → complex) (i n : Nat)
    (p : Nat → Nat → complex) :
    (List.range n).foldl (fun q j => setPoint q i j (g i j (q i j))) p
      = fun a b => if a = i ∧ b < n then g a b (p a b) else p a b := by
  induction n with
  | zero => funext a b; simp
  | succ n ih =>
    rw [List.range_succ, List.foldl_append, ih]
    funext a b
    simp only [List.foldl_cons, List.foldl_nil, setPoint]
    by_cases ha : a = i
    · subst ha
      by_cases hb : b = n
      · subst hb; simp
      · have : b < n + 1 ↔ b < n := by omega
        simp [hb, this]
    · simp [ha]

theorem foldl_cells (g : Nat → Nat → complex → complex) (m n : Nat)
    (p : Nat → Nat → complex) :
    (List.range m).foldl
        (fun q i => (List.range n).foldl (fun q j => setPoint q i j (g i j (q i j))) q) p
      = fun a b => if a < m ∧ b < n then g a b (p a b) else p a b := by
  induction m with
  | zero => funext a b; simp
  | succ m ih =>
    rw [List.range_succ, List.foldl_append, ih]
    simp only [List.foldl_cons, List.foldl_nil]
    rw [foldl_cells_inner]
    funext a b
    by_cases ha : a = m
    · subst ha; simp
    · have : a < m + 1 ↔ a < m := by omega
      simp [ha, this]

theorem step_body_eq (rg : range) (dx dy : ℚ) (i : Nat) :
    step_body rg dx dy i = fun p j => setPoint p i j (step_cell rg dx dy i j (p i j)) := by
  funext p j a b
  unfold step_body step_cell
  by_cases h : (p i j).flag = 0
  · simp only [h, if_true, setPoint]
    split
    · rename_i hab; rw [hab.1, hab.2]
    · rfl
  · simp only [h, if_false, setPoint]
    by_cases hab : a = i ∧ b = j
    · simp [hab]
    · simp [hab]

theorem fill_body_eq (rg : range) (dx dy : ℚ) (i : Nat) :
    fill_body rg dx dy i = fun p j => setPoint p i j (fill_cell rg dx dy i j (p i j)) := by
  funext p j
  rfl

/-- The grid after `field_step`, cell by cell. -/
theorem field_step_point (s : State) (a b : Nat) :
    (field_step s).fl.point a b =
      if a < s.fl.rows ∧ b < s.fl.cols then
        step_cell s.rg ((s.rg.x2 - s.rg.x1) / (s.fl.cols : ℚ))
          ((s.rg.y1 - s.rg.y2) / (s.fl.rows : ℚ)) a b (s.fl.point a b)
      else s.fl.point a b := by
  simp only [field_step, step_body_eq]
  rw [foldl_cells (step_cell s.rg ((s.rg.x2 - s.rg.x1) / (s.fl.cols : ℚ))
    ((s.rg.y1 - s.rg.y2) / (s.fl.rows : ℚ)))]

theorem field_step_rg (s : State) : (field_step s).rg = s.rg := rfl
theorem field_step_rg_def (s : State) : (field_step s).rg_def = s.rg_def := rfl
theorem field_step_rows (s : State) : (field_step s).fl.rows = s.fl.rows := rfl
theorem field_step_cols (s : State) : (field_step s).fl.cols = s.fl.cols := rfl

theorem field_fill_rg (s : State) :
    (field_fill s).rg = fill_range s.rg_def s.fl.rows s.fl.cols := by
  simp only [field_fill, fill_range]

theorem field_fill_rg_def (s : State) : (field_fill s).rg_def = s.rg_def := rfl
theorem field_fill_rows (s : State) : (field_fill s).fl.rows = s.fl.rows := rfl
theorem field_fill_cols (s : State) : (field_fill s).fl.cols = s.fl.cols := rfl

/-- The grid after `field_fill`, cell by cell. -/
theorem field_fill_point (s : State) (a b : Nat) :
    (field_fill s).fl.point a b =
      if a < s.fl.rows ∧ b < s.fl.cols then
        { r := (field_fill s).rg.x1 + ((b : ℚ) + 0.5) * ((s.rg_def.x2 - s.rg_def.x1) / (s.fl.cols : ℚ))
          i := (field_fill s).rg.y2
                + ((a : ℚ) + 0.5) * (((field_fill s).rg.y1 - (field_fill s).rg.y2) / (s.fl.rows : ℚ))
          flag := 1 }
      else s.fl.point a b := by
  simp only [field_fill, fill_body_eq]
  rw [foldl_cells]
  rfl


/-! ## The iteration step -/

theorem pointAt_re_eq (rg : range) (cols col : Nat) :
    rg.x1 + ((col : ℚ) + 0.5) * ((rg.x2 - rg.x1) / (cols : ℚ)) = pointAt_re rg cols col := by
  unfold pointAt_re; ring

theorem pointAt_im_eq (rg : range) (rows row : Nat) :
    rg.y2 + ((row : ℚ) + 0.5) * ((rg.y1 - rg.y2) / (rows : ℚ)) = pointAt_im rg rows row := by
  unfold pointAt_im; ring

/-- C1: a cell `(i, j)` of the grid (so `rows > 0` and `cols > 0`) whose flag is 1
and that holds `(re, im)` holds after one `field_step` the value
`(re*re - im*im + c_re, 2*re*im + c_im)`, `c` being the point of the active range at the
cell position, and its flag is 1 when the squared modulus of the new value is at most 4 and
0 otherwise. -/
theorem field_step_bounded_cell (s : State) (i j : Nat)
    (hi : i < s.fl.rows) (hj : j < s.fl.cols)
    (hflag : (s.fl.point i j).flag = 1) :
    ((field_step s).fl.point i j).r
        = (s.fl.point i j).r * (s.fl.point i j).r - (s.fl.point i j).i * (s.fl.point i j).i
          + pointAt_re s.rg s.fl.cols j
    ∧ ((field_step s).fl.point i j).i
        = 2 * (s.fl.point i j).r * (s.fl.point i j).i + pointAt_im s.rg s.fl.rows i
    ∧ (((field_step s).fl.point i j).flag = 1 ↔
        ((field_step s).fl.point i j).r * ((field_step s).fl.point i j).r
          + ((field_step s).fl.point i j).i * ((field_step s).fl.point i j).i ≤ 4)
    ∧ (((field_step s).fl.point i j).flag = 0 ↔
        ¬ (((field_step s).fl.point i j).r * ((field_step s).fl.point i j).r
          + ((field_step s).fl.point i j).i * ((field_step s).fl.point i j).i ≤ 4)) := by
  have hne : ¬ (s.fl.point i j).flag = 0 := by rw [hflag]; decide
  have hcell := field_step_point s i j
  rw [if_pos ⟨hi, hj⟩] at hcell
  simp only [step_cell, hne, if_false, c_add, c_mul, c_abs, pointAt_re_eq, pointAt_im_eq] at hcell
  rw [hcell]
  refine ⟨rfl, by ring, ?_, ?_⟩ <;> dsimp only <;> split_ifs with h <;> simp [h]

theorem square_point (a b : Nat) (ha : a < 4) (hb : b < 2) :
    square.fl.point a b = ⟨-1 + ((b : ℚ) + 0.5), 1 + ((a : ℚ) + 0.5) * (-1 / 2), 1⟩ := by
  have h := field_fill_point { tiny with rg_def := ⟨-1, 1, -1, 1⟩ } a b
  have hr : ({ tiny with rg_def := ⟨-1, 1, -1, 1⟩ } : State).fl.rows = 4 := rfl
  have hc : ({ tiny with rg_def := ⟨-1, 1, -1, 1⟩ } : State).fl.cols = 2 := rfl
  rw [hr, hc, if_pos ⟨ha, hb⟩, field_fill_rg] at h
  rw [square, h]
  norm_num [fill_range, hr, hc]

theorem field_step_bounded_cell_witness :
    0 < square.fl.rows ∧ 0 < square.fl.cols ∧ (square.fl.point 0 0).flag = 1
      ∧ (field_step square).fl.point 0 0 = ⟨-13 / 16, 0, 1⟩ := by
  have hp : square.fl.point 0 0 = ⟨-1 / 2, 3 / 4, 1⟩ := by
    rw [square_point 0 0 (by decide) (by decide)]; norm_num
  have hrows : square.fl.rows = 4 := rfl
  have hcols : square.fl.cols = 2 := rfl
  have hrg : square.rg = ⟨-1, 1, -1, 1⟩ := by
    rw [square, field_fill_rg]; norm_num [fill_range]
  have hflag : (square.fl.point 0 0).flag = 1 := by rw [hp]
  obtain ⟨h1, h2, h3, -⟩ :=
    field_step_bounded_cell square 0 0 (by rw [hrows]; decide) (by rw [hcols]; decide) hflag
  rw [hp, hrg, hrows] at h2
  rw [hp, hrg, hcols] at h1
  norm_num [pointAt_re, pointAt_im] at h1 h2
  have h4 : ((field_step square).fl.point 0 0).flag = 1 := by
    rw [h3, h1, h2]; norm_num
  refine ⟨by rw [hrows]; decide, by rw [hcols]; decide, hflag, ?_⟩
  cases hz : (field_step square).fl.point 0 0 with
  | mk r i flag =>
    rw [hz] at h1 h2 h4
    simp only at h1 h2 h4
    rw [h1, h2, h4]
    norm_num

/-- An escaped cell is left alone by one `field_step`. -/
theorem field_step_escaped (s : State) (i j : Nat) (h : (s.fl.point i j).flag = 0) :
    (field_step s).fl.point i j = s.fl.point i j := by
  rw [field_step_point]
  split
  · simp [step_cell, h]
  · rfl

/-- C2 (freeze): a cell whose flag is 0 holds the same value and the same flag after
`field_step`, and after any number `n` of consecutive `field_step` calls; in particular
its flag is still 0. -/
theorem field_step_freeze (s : State) (i j : Nat) (h : (s.fl.point i j).flag = 0) (n : Nat) :
    (field_step s).fl.point i j = s.fl.point i j
    ∧ ((field_step^[n]) s).fl.point i j = s.fl.point i j
    ∧ (((field_step^[n]) s).fl.point i j).flag = 0 := by
  have hn : ((field_step^[n]) s).fl.point i j = s.fl.point i j := by
    induction n with
    | zero => rfl
    | succ n ih =>
      rw [Function.iterate_succ_apply', field_step_escaped _ _ _ (by rw [ih]; exact h), ih]
  exact ⟨field_step_escaped s i j h, hn, by rw [hn]; exact h⟩

theorem field_step_freeze_witness :
    (tiny.fl.point 1 1).flag = 0
      ∧ ((field_step^[5]) tiny).fl.point 1 1 = ⟨0, 0, 0⟩ := by
  have h : (tiny.fl.point 1 1).flag = 0 := rfl
  exact ⟨h, (field_step_freeze tiny 1 1 h 5).2.1⟩

/-! ## Filling the grid -/

theorem fill_range_x1 (d : range) (rows cols : Nat) : (fill_range d rows cols).x1 = d.x1 := by
  unfold fill_range; split <;> rfl

theorem fill_range_x2 (d : range) (rows cols : Nat) : (fill_range d rows cols).x2 = d.x2 := by
  unfold fill_range; split <;> rfl

/-- After `field_fill` a cell of the grid holds the point of the active range at its position,
with flag 1. -/
theorem field_fill_cell (s : State) (i j : Nat) (hi : i < s.fl.rows) (hj : j < s.fl.cols) :
    (field_fill s).fl.point i j
      = ⟨pointAt_re (field_fill s).rg s.fl.cols j, pointAt_im (field_fill s).rg s.fl.rows i, 1⟩ := by
  rw [field_fill_point, if_pos ⟨hi, hj⟩, ← pointAt_im_eq, ← pointAt_re_eq, field_fill_rg,
    fill_range_x1, fill_range_x2]

theorem escape_bound (a b : ℚ) (h : 4 < a * a + b * b) :
    4 < (a * a - b * b + a) * (a * a - b * b + a) + (a * b + b * a + b) * (a * b + b * a + b) := by
  have hfac : (a * a - b * b + a) * (a * a - b * b + a) + (a * b + b * a + b) * (a * b + b * a + b)
      = (a * a + b * b) * (a * a + b * b + 2 * a + 1) := by ring
  rw [hfac]
  have hpos : 0 < a * a + b * b + 2 * a := by
    by_contra hcon
    push_neg at hcon
    have hb : 0 ≤ b * b := mul_self_nonneg b
    have ha : a ≤ 0 := by nlinarith
    nlinarith [mul_self_nonneg (a * a + b * b + 2 * a),
      mul_nonneg (neg_nonneg.mpr ha) (neg_nonneg.mpr hcon)]
  nlinarith

/-- C3 (immediate escape): when the position of a grid cell maps, in the active range that
`field_fill` sets, to a point `c` with `c_re^2 + c_im^2 > 4`, then `field_fill` stores `c`
itself in the cell with flag 1, and after the one `field_step` that follows the flag of the
cell is 0. -/
theorem fill_step_immediate_escape (s : State) (i j : Nat)
    (hi : i < s.fl.rows) (hj : j < s.fl.cols)
    (hc : 4 < pointAt_re (field_fill s).rg s.fl.cols j * pointAt_re (field_fill s).rg s.fl.cols j
            + pointAt_im (field_fill s).rg s.fl.rows i * pointAt_im (field_fill s).rg s.fl.rows i) :
    (field_fill s).fl.point i j
        = ⟨pointAt_re (field_fill s).rg s.fl.cols j, pointAt_im (field_fill s).rg s.fl.rows i, 1⟩
    ∧ ((field_step (field_fill s)).fl.point i j).flag = 0 := by
  have hfill := field_fill_cell s i j hi hj
  refine ⟨hfill, ?_⟩
  have hstep := field_step_point (field_fill s) i j
  rw [field_fill_rows, field_fill_cols, if_pos ⟨hi, hj⟩, hfill] at hstep
  have hne : ¬ ((1 : Int) = 0) := by decide
  simp only [step_cell, hne, if_false, c_add, c_mul, c_abs, pointAt_re_eq, pointAt_im_eq] at hstep
  rw [hstep]
  have hgt := escape_bound _ _ hc
  simp only
  rw [if_neg (not_le.mpr hgt)]

theorem tiny_fill_rg : (field_fill tiny).rg = ⟨-5 / 2, 1, -7 / 2, 7 / 2⟩ := by
  rw [field_fill_rg]
  have hr : tiny.fl.rows = 4 := rfl
  have hc : tiny.fl.cols = 2 := rfl
  have hd : tiny.rg_def = ⟨-2.5, 1, 0, 0⟩ := rfl
  rw [hr, hc, hd]
  norm_num [fill_range]

theorem fill_step_immediate_escape_witness :
    0 < tiny.fl.rows ∧ 0 < tiny.fl.cols
      ∧ 4 < pointAt_re (field_fill tiny).rg tiny.fl.cols 0 * pointAt_re (field_fill tiny).rg tiny.fl.cols 0
            + pointAt_im (field_fill tiny).rg tiny.fl.rows 0 * pointAt_im (field_fill tiny).rg tiny.fl.rows 0
      ∧ ((field_step (field_fill tiny)).fl.point 0 0).flag = 0 := by
  have hr : tiny.fl.rows = 4 := rfl
  have hc : tiny.fl.cols = 2 := rfl
  have h0 : 4 < pointAt_re (field_fill tiny).rg tiny.fl.cols 0 * pointAt_re (field_fill tiny).rg tiny.fl.cols 0
            + pointAt_im (field_fill tiny).rg tiny.fl.rows 0 * pointAt_im (field_fill tiny).rg tiny.fl.rows 0 := by
    rw [tiny_fill_rg, hr, hc]
    norm_num [pointAt_re, pointAt_im]
  exact ⟨by rw [hr]; decide, by rw [hc]; decide, h0,
    (fill_step_immediate_escape tiny 0 0 (by rw [hr]; decide) (by rw [hc]; decide) h0).2⟩

theorem fill_range_of_ne (d : range) (rows cols : Nat) (h : d.y1 ≠ d.y2) :
    fill_range d rows cols = d := by
  unfold fill_range
  rw [if_neg (sub_ne_zero.mpr h)]

/-- C5, as amended (exact real arithmetic): for a default range with `y1 ≠ y2`, `field_fill`
takes the default range as the active range and every grid cell `(i, j)` gets flag 1 and the
value
`(x1 + (j + 0.5)*(x2 - x1)/cols, y2 - (i + 0.5)*(y2 - y1)/rows)`; a larger row index gives a
smaller imaginary part when `y1 < y2`, and a larger one when `y2 < y1`. In the 4-row by 2-column
grid filled from `(-1, 1, -1, 1)` the cell `(0, 0)` holds `(-0.5, 0.75)`. -/
theorem field_fill_coordinates (s : State) (i j : Nat)
    (hi : i < s.fl.rows) (hj : j < s.fl.cols) (hy : s.rg_def.y1 ≠ s.rg_def.y2) :
    (field_fill s).rg = s.rg_def
    ∧ (field_fill s).fl.point i j
        = ⟨s.rg_def.x1 + ((j : ℚ) + 0.5) * (s.rg_def.x2 - s.rg_def.x1) / (s.fl.cols : ℚ),
           s.rg_def.y2 - ((i : ℚ) + 0.5) * (s.rg_def.y2 - s.rg_def.y1) / (s.fl.rows : ℚ), 1⟩
    ∧ (s.rg_def.y1 < s.rg_def.y2 → ∀ k, i < k → k < s.fl.rows →
        ((field_fill s).fl.point k j).i < ((field_fill s).fl.point i j).i)
    ∧ (s.rg_def.y2 < s.rg_def.y1 → ∀ k, i < k → k < s.fl.rows →
        ((field_fill s).fl.point i j).i < ((field_fill s).fl.point k j).i)
    ∧ square.fl.point 0 0 = ⟨-0.5, 0.75, 1⟩ := by
  have hrg : (field_fill s).rg = s.rg_def := by
    rw [field_fill_rg, fill_range_of_ne _ _ _ hy]
  have hrows : (0 : ℚ) < (s.fl.rows : ℚ) := by
    have : 0 < s.fl.rows := by omega
    exact_mod_cast this
  have hcell : ∀ k, k < s.fl.rows → (field_fill s).fl.point k j
      = ⟨pointAt_re s.rg_def s.fl.cols j, pointAt_im s.rg_def s.fl.rows k, 1⟩ := by
    intro k hk
    rw [field_fill_cell s k j hk hj, hrg]
  refine ⟨hrg, hcell i hi, ?_, ?_, ?_⟩
  · intro hlt k hik hk
    rw [hcell k hk, hcell i hi]
    simp only [pointAt_im]
    have hik2 : (i : ℚ) < (k : ℚ) := by exact_mod_cast hik
    have hd : 0 < s.rg_def.y2 - s.rg_def.y1 := by linarith
    have : ((i : ℚ) + 0.5) * (s.rg_def.y2 - s.rg_def.y1) / (s.fl.rows : ℚ)
        < ((k : ℚ) + 0.5) * (s.rg_def.y2 - s.rg_def.y1) / (s.fl.rows : ℚ) := by
      apply div_lt_div_of_pos_right _ hrows
      nlinarith
    linarith
  · intro hlt k hik hk
    rw [hcell k hk, hcell i hi]
    simp only [pointAt_im]
    have hik2 : (i : ℚ) < (k : ℚ) := by exact_mod_cast hik
    have hd : s.rg_def.y2 - s.rg_def.y1 < 0 := by linarith
    have : ((k : ℚ) + 0.5) * (s.rg_def.y2 - s.rg_def.y1) / (s.fl.rows : ℚ)
        < ((i : ℚ) + 0.5) * (s.rg_def.y2 - s.rg_def.y1) / (s.fl.rows : ℚ) := by
      apply div_lt_div_of_pos_right _ hrows
      nlinarith
    linarith
  · rw [square_point 0 0 (by decide) (by decide)]; norm_num

theorem flipped_point (k : Nat) (hk : k < 4) :
    (field_fill flipped).fl.point k 0 = ⟨-1 / 2, -1 - ((k : ℚ) + 0.5) * (-2) / 4, 1⟩ := by
  have hr : flipped.fl.rows = 4 := rfl
  have hc : flipped.fl.cols = 2 := rfl
  have hd : flipped.rg_def = ⟨-1, 1, 1, -1⟩ := rfl
  have hy : flipped.rg_def.y1 ≠ flipped.rg_def.y2 := by rw [hd]; norm_num
  rw [field_fill_cell flipped k 0 (by rw [hr]; exact hk) (by rw [hc]; decide), field_fill_rg,
    fill_range_of_ne _ _ _ hy, hd, hr, hc]
  norm_num [pointAt_re, pointAt_im]

/-- C5 fails as stated: in the 4-row by 2-column grid with the default range `(-1, 1, 1, -1)`,
where `y1 ≠ y2`, the cell of row 1 gets a larger imaginary part than the cell of row 0. And
the formula holds in exact arithmetic only: on x86-64 the text
`x:0.5..1/y:0.9999999999999999999..1` is stored as `(1/2, 1, 1 - 2^-63, 1)`, with `y1 < y2`,
and in the 4-row by 2-column grid the cells of rows 1 and 2 get the same imaginary part,
`1 - 2^-64`, which is not the value `y2 - (1 + 0.5)*(y2 - y1)/4` of the formula for row 1. -/
theorem field_fill_row_order_counterexample :
    0 < flipped.fl.rows ∧ 0 < flipped.fl.cols ∧ flipped.rg_def.y1 ≠ flipped.rg_def.y2
      ∧ ((field_fill flipped).fl.point 0 0).i = -3 / 4
      ∧ ((field_fill flipped).fl.point 1 0).i = -1 / 4
      ∧ ¬ ((field_fill flipped).fl.point 1 0).i < ((field_fill flipped).fl.point 0 0).i
      ∧ range_parse_r round_ld "x:0.5..1/y:0.9999999999999999999..1".toList initial.rg_def.toX
          = (0, range.toX ⟨1 / 2, 1, 9223372036854775807 / 9223372036854775808, 1⟩)
      ∧ (fill_point_r round_ld round_d
            (range.toX ⟨1 / 2, 1, 9223372036854775807 / 9223372036854775808, 1⟩) 4 2 1 0).2
          = .fin (18446744073709551615 / 18446744073709551616)
      ∧ (fill_point_r round_ld round_d
            (range.toX ⟨1 / 2, 1, 9223372036854775807 / 9223372036854775808, 1⟩) 4 2 2 0).2
          = .fin (18446744073709551615 / 18446744073709551616)
      ∧ (18446744073709551615 / 18446744073709551616 : ℚ)
          ≠ 1 - (1 + 0.5) * (1 - 9223372036854775807 / 9223372036854775808) / 4 := by
  have hr : flipped.fl.rows = 4 := rfl
  have hc : flipped.fl.cols = 2 := rfl
  have hd : flipped.rg_def = ⟨-1, 1, 1, -1⟩ := rfl
  have hexact : 0 < flipped.fl.rows ∧ 0 < flipped.fl.cols
      ∧ flipped.rg_def.y1 ≠ flipped.rg_def.y2
      ∧ ((field_fill flipped).fl.point 0 0).i = -3 / 4
      ∧ ((field_fill flipped).fl.point 1 0).i = -1 / 4
      ∧ ¬ ((field_fill flipped).fl.point 1 0).i < ((field_fill flipped).fl.point 0 0).i := by
    rw [flipped_point 0 (by decide), flipped_point 1 (by decide), hr, hc, hd]
    norm_num
  obtain ⟨h1, h2, h3, h4, h5, h6⟩ := hexact
  refine ⟨h1, h2, h3, h4, h5, h6, ?_, ?_, ?_, by norm_num⟩
  · set_option maxRecDepth 100000 in with_unfolding_all rfl
  · set_option maxRecDepth 100000 in with_unfolding_all rfl
  · set_option maxRecDepth 100000 in with_unfolding_all rfl

theorem field_fill_coordinates_witness :
    0 < flipped.fl.rows ∧ 0 < flipped.fl.cols ∧ flipped.rg_def.y1 ≠ flipped.rg_def.y2
      ∧ (field_fill flipped).rg = ⟨-1, 1, 1, -1⟩
      ∧ ((field_fill flipped).fl.point 0 0).i < ((field_fill flipped).fl.point 3 0).i := by
  have hr : flipped.fl.rows = 4 := rfl
  have hc : flipped.fl.cols = 2 := rfl
  have hd : flipped.rg_def = ⟨-1, 1, 1, -1⟩ := rfl
  have hy : flipped.rg_def.y1 ≠ flipped.rg_def.y2 := by rw [hd]; norm_num
  obtain ⟨h1, -, -, h4, -⟩ :=
    field_fill_coordinates flipped 0 0 (by rw [hr]; decide) (by rw [hc]; decide) hy
  refine ⟨by decide, by decide, hy, by rw [h1, hd], ?_⟩
  exact h4 (by rw [hd]; norm_num) 3 (by decide) (by rw [hr]; decide)

/-! ## Aspect resolution -/

/-- C6, as amended (exact real arithmetic): for a default range with `y1 = y2`, in a grid with
`rows > 0` and `cols > 0`, `field_fill` keeps `x1` and `x2` and sets the vertical bounds to
`y1 - h/2` and
`y1 + h/2` with `h = (rows/cols)*(x2 - x1)`. In the 4-row by 8-column grid with `x1 = -2`,
`x2 = 1`, `y1 = y2 = 0` the resolved bounds are `y1 = -0.75` and `y2 = 0.75`. -/
theorem field_fill_aspect (s : State) (_hrows : 0 < s.fl.rows) (_hcols : 0 < s.fl.cols)
    (hy : s.rg_def.y1 = s.rg_def.y2) :
    (field_fill s).rg
        = ⟨s.rg_def.x1, s.rg_def.x2,
           s.rg_def.y1 - (s.fl.rows : ℚ) / (s.fl.cols : ℚ) * (s.rg_def.x2 - s.rg_def.x1) / 2,
           s.rg_def.y1 + (s.fl.rows : ℚ) / (s.fl.cols : ℚ) * (s.rg_def.x2 - s.rg_def.x1) / 2⟩
    ∧ (field_fill wide).rg = ⟨-2, 1, -0.75, 0.75⟩ := by
  constructor
  · rw [field_fill_rg, fill_range, if_pos (sub_eq_zero.mpr hy), ← hy]
    congr 1 <;> ring
  · rw [field_fill_rg]
    have hr : wide.fl.rows = 4 := rfl
    have hc : wide.fl.cols = 8 := rfl
    have hd : wide.rg_def = ⟨-2, 1, 0, 0⟩ := rfl
    rw [hr, hc, hd]
    norm_num [fill_range]

theorem field_fill_aspect_witness :
    0 < wide.fl.rows ∧ 0 < wide.fl.cols ∧ wide.rg_def.y1 = wide.rg_def.y2
      ∧ (field_fill wide).rg = ⟨-2, 1, -3 / 4, 3 / 4⟩ := by
  have hr : wide.fl.rows = 4 := rfl
  have hc : wide.fl.cols = 8 := rfl
  have hd : wide.rg_def = ⟨-2, 1, 0, 0⟩ := rfl
  have h := (field_fill_aspect wide (by decide) (by decide) (by rw [hd])).1
  rw [hr, hc, hd] at h
  refine ⟨by decide, by decide, by rw [hd], ?_⟩
  rw [h]
  norm_num

/-- C6 fails as stated: in the 4-row by 8-column grid with `x1 = -2`, `x2 = 1`, `y1 = y2 = 0`
the vertical bounds after `field_fill` are `-3/4` and `3/4`; they are not `y1 - h/2` and
`y1 + h/2` for `h = (cols/rows)*(x2 - x1)`, which would be `-3` and `3`. And with
`h = (rows/cols)*(x2 - x1)` the bounds are `y1 - h/2` and `y1 + h/2` in exact arithmetic only:
on x86-64 the text `c:1.5+0i/w:3` is stored as `(0, 3, 0, 0)`, and in a 4-row by 6-column grid
the vertical bounds after `field_fill` are `-(1 - 2^-54)` and `1 - 2^-54`, not `-1` and `1`,
because `0.5 * rows / cols` is rounded to `double`. -/
theorem aspect_cols_over_rows_counterexample :
    wide.fl.rows = 4 ∧ wide.fl.cols = 8 ∧ wide.rg_def = ⟨-2, 1, 0, 0⟩
      ∧ (field_fill wide).rg.y1 = -3 / 4 ∧ (field_fill wide).rg.y2 = 3 / 4
      ∧ (field_fill wide).rg.y1
          ≠ wide.rg_def.y1 - (wide.fl.cols : ℚ) / (wide.fl.rows : ℚ) * (wide.rg_def.x2 - wide.rg_def.x1) / 2
      ∧ (field_fill wide).rg.y2
          ≠ wide.rg_def.y1 + (wide.fl.cols : ℚ) / (wide.fl.rows : ℚ) * (wide.rg_def.x2 - wide.rg_def.x1) / 2
      ∧ (field_fill wide).rg.y1 ≠ -3 ∧ (field_fill wide).rg.y2 ≠ 3
      ∧ range_parse_r round_ld "c:1.5+0i/w:3".toList initial.rg_def.toX
          = (0, range.toX ⟨0, 3, 0, 0⟩)
      ∧ fill_range_r round_ld round_d (range.toX ⟨0, 3, 0, 0⟩) 4 6
          = range.toX ⟨0, 3, -(18014398509481983 / 18014398509481984),
              18014398509481983 / 18014398509481984⟩
      ∧ (-(18014398509481983 / 18014398509481984) : ℚ) ≠ 0 - (4 : ℚ) / 6 * (3 - 0) / 2
      ∧ (18014398509481983 / 18014398509481984 : ℚ) ≠ 0 + (4 : ℚ) / 6 * (3 - 0) / 2 := by
  have hr : wide.fl.rows = 4 := rfl
  have hc : wide.fl.cols = 8 := rfl
  have hd : wide.rg_def = ⟨-2, 1, 0, 0⟩ := rfl
  have hrg : (field_fill wide).rg = ⟨-2, 1, -3 / 4, 3 / 4⟩ := by
    rw [field_fill_rg, hr, hc, hd]
    norm_num [fill_range]
  have hexact : wide.fl.rows = 4 ∧ wide.fl.cols = 8 ∧ wide.rg_def = ⟨-2, 1, 0, 0⟩
      ∧ (field_fill wide).rg.y1 = -3 / 4 ∧ (field_fill wide).rg.y2 = 3 / 4
      ∧ (field_fill wide).rg.y1
          ≠ wide.rg_def.y1 - (wide.fl.cols : ℚ) / (wide.fl.rows : ℚ) * (wide.rg_def.x2 - wide.rg_def.x1) / 2
      ∧ (field_fill wide).rg.y2
          ≠ wide.rg_def.y1 + (wide.fl.cols : ℚ) / (wide.fl.rows : ℚ) * (wide.rg_def.x2 - wide.rg_def.x1) / 2
      ∧ (field_fill wide).rg.y1 ≠ -3 ∧ (field_fill wide).rg.y2 ≠ 3 := by
    rw [hrg, hr, hc, hd]
    norm_num
  obtain ⟨h1, h2, h3, h4, h5, h6, h7, h8, h9⟩ := hexact
  refine ⟨h1, h2, h3, h4, h5, h6, h7, h8, h9, ?_, ?_, by norm_num, by norm_num⟩
  · set_option maxRecDepth 100000 in with_unfolding_all rfl
  · set_option maxRecDepth 100000 in with_unfolding_all rfl

/-! ## Allocation and resize -/

theorem field_init_rg_def (term : winsize) (s : State) :
    (field_init term s).rg_def = s.rg_def := by
  unfold field_init; rfl

theorem field_init_rows (term : winsize) (s : State) :
    (field_init term s).fl.rows = 4 * ((term.ws_row % 65536 + 65535) % 65536) := by
  simp only [field_init, get_winsize, Nat.shiftLeft_eq]
  omega

theorem field_init_cols (term : winsize) (s : State) :
    (field_init term s).fl.cols = 2 * (term.ws_col % 65536) := by
  simp only [field_init, get_winsize, Nat.shiftLeft_eq]
  omega

/-- C8: when the terminal reports `R ≥ 1` rows and `C` columns, both 16-bit values, the grid
after `field_init` has `4*(R - 1)` rows and `2*C` columns, a multiple of 4 and a multiple
of 2. -/
theorem field_init_dimensions (R C : Nat) (s : State)
    (hR : 1 ≤ R) (hR16 : R < 65536) (hC16 : C < 65536) :
    (field_init ⟨R, C⟩ s).fl.rows = 4 * (R - 1)
    ∧ (field_init ⟨R, C⟩ s).fl.cols = 2 * C
    ∧ 4 ∣ (field_init ⟨R, C⟩ s).fl.rows
    ∧ 2 ∣ (field_init ⟨R, C⟩ s).fl.cols := by
  rw [field_init_rows, field_init_cols]
  simp only
  have h1 : (R % 65536 + 65535) % 65536 = R - 1 := by omega
  have h2 : C % 65536 = C := by omega
  rw [h1, h2]
  exact ⟨rfl, rfl, Dvd.intro _ rfl, Dvd.intro _ rfl⟩

theorem field_init_dimensions_witness :
    1 ≤ 24 ∧ 24 < 65536 ∧ 80 < 65536
      ∧ (field_init ⟨24, 80⟩ initial).fl.rows = 92
      ∧ (field_init ⟨24, 80⟩ initial).fl.cols = 160 :=
  ⟨by decide, by decide, by decide,
    (field_init_dimensions 24 80 initial (by decide) (by decide) (by decide)).1,
    (field_init_dimensions 24 80 initial (by decide) (by decide) (by decide)).2.1⟩

theorem field_fill_congr (a b : State) (hfl : a.fl = b.fl) (hdef : a.rg_def = b.rg_def) :
    (field_fill a).fl = (field_fill b).fl ∧ (field_fill a).rg = (field_fill b).rg := by
  simp only [field_fill, hfl, hdef, and_self]

/-- C7 (resize): after `resize` on a terminal that reports the size `term`, whatever the grid
held before, every cell of the new grid has flag 1 and holds the point of the active range at
its position in the new dimensions; the active range is the one `field_fill` derives from the
default range and the new dimensions (the default range itself when `y1 ≠ y2`); and two prior
states with the same default range end with the same grid and the same active range. -/
theorem resize_restarts (term : winsize) (s : State) :
    (∀ i j, i < (resize term s).fl.rows → j < (resize term s).fl.cols →
      (resize term s).fl.point i j
        = ⟨pointAt_re (resize term s).rg (resize term s).fl.cols j,
           pointAt_im (resize term s).rg (resize term s).fl.rows i, 1⟩)
    ∧ (resize term s).fl.rows = 4 * ((term.ws_row % 65536 + 65535) % 65536)
    ∧ (resize term s).fl.cols = 2 * (term.ws_col % 65536)
    ∧ (resize term s).rg = fill_range s.rg_def (resize term s).fl.rows (resize term s).fl.cols
    ∧ (s.rg_def.y1 ≠ s.rg_def.y2 → (resize term s).rg = s.rg_def)
    ∧ (∀ t : State, t.rg_def = s.rg_def →
        (resize term t).fl = (resize term s).fl ∧ (resize term t).rg = (resize term s).rg) := by
  simp only [resize]
  have hdef : (field_init term s).rg_def = s.rg_def := field_init_rg_def term s
  refine ⟨?_, ?_, ?_, ?_, ?_, ?_⟩
  · intro i j hi hj
    rw [field_fill_rows] at hi
    rw [field_fill_cols] at hj
    rw [field_fill_cell (field_init term s) i j hi hj, field_fill_rows, field_fill_cols]
  · rw [field_fill_rows, field_init_rows]
  · rw [field_fill_cols, field_init_cols]
  · rw [field_fill_rg, field_fill_rows, field_fill_cols, hdef]
  · intro hy
    rw [field_fill_rg, hdef, fill_range_of_ne _ _ _ hy]
  · intro t ht
    have hfl : (field_init term t).fl = (field_init term s).fl := by
      unfold field_init; rfl
    have hd : (field_init term t).rg_def = (field_init term s).rg_def := by
      rw [field_init_rg_def, field_init_rg_def, ht]
    exact field_fill_congr (field_init term t) (field_init term s) hfl hd

theorem resize_restarts_witness :
    (field_step square).rg_def = square.rg_def
      ∧ (resize ⟨2, 1⟩ (field_step square)).fl = (resize ⟨2, 1⟩ square).fl
      ∧ (resize ⟨2, 1⟩ (field_step square)).rg = (resize ⟨2, 1⟩ square).rg
      ∧ 0 < (resize ⟨2, 1⟩ square).fl.rows ∧ 0 < (resize ⟨2, 1⟩ square).fl.cols
      ∧ ((resize ⟨2, 1⟩ square).fl.point 0 0).flag = 1 := by
  have h := resize_restarts ⟨2, 1⟩ square
  have hrows : 0 < (resize ⟨2, 1⟩ square).fl.rows := by rw [h.2.1]; decide
  have hcols : 0 < (resize ⟨2, 1⟩ square).fl.cols := by rw [h.2.2.1]; decide
  refine ⟨rfl, (h.2.2.2.2.2 (field_step square) rfl).1, (h.2.2.2.2.2 (field_step square) rfl).2,
    hrows, hcols, ?_⟩
  rw [h.1 0 0 hrows hcols]

/-! ## Rendering -/

theorem flag_cases (f : Int) (h : f = 0 ∨ f = 1) : ∃ d : Bool, f = if d then 1 else 0 := by
  rcases h with h | h
  · exact ⟨false, by simp [h]⟩
  · exact ⟨true, by simp [h]⟩

set_option maxRecDepth 100000 in
theorem braille_bytes : ∀ d0 d1 d2 d3 d4 d5 d6 d7 : Bool,
    printf_s
      [Int.toNat 0xE2,
       Int.toNat ((0xA0 + ((if d6 then 1 else 0) * 2 ^ 0 + (if d7 then 1 else 0) * 2 ^ 1)) % 256),
       Int.toNat ((0x80 + ((if d0 then 1 else 0) * 2 ^ 0 + (if d1 then 1 else 0) * 2 ^ 1
          + (if d2 then 1 else 0) * 2 ^ 2 + (if d3 then 1 else 0) * 2 ^ 3
          + (if d4 then 1 else 0) * 2 ^ 4 + (if d5 then 1 else 0) * 2 ^ 5)) % 256),
       0]
      = utf8 (0x2800 + (Int.toNat (if d0 then 1 else 0) * 2 ^ 0 + Int.toNat (if d1 then 1 else 0) * 2 ^ 1
          + Int.toNat (if d2 then 1 else 0) * 2 ^ 2 + Int.toNat (if d3 then 1 else 0) * 2 ^ 3
          + Int.toNat (if d4 then 1 else 0) * 2 ^ 4 + Int.toNat (if d5 then 1 else 0) * 2 ^ 5
          + Int.toNat (if d6 then 1 else 0) * 2 ^ 6 + Int.toNat (if d7 then 1 else 0) * 2 ^ 7)) := by
  decide

theorem digit_char_facts : ∀ d : Fin 10,
    isdigit (digit_char d) = true ∧ (digit_char d).toNat - 48 = d.val
      ∧ isspace (digit_char d) = false ∧ digit_char d ≠ '-' ∧ digit_char d ≠ '+'
      ∧ tolower (digit_char d) = digit_char d
      ∧ digit_char d ≠ 'i' ∧ digit_char d ≠ 'n' ∧ digit_char d ≠ 'x' ∧ digit_char d ≠ 'e'
      ∧ digit_char d ≠ '.' := by
  decide

theorem tolower_upper (c : Char) (h : 65 ≤ c.toNat ∧ c.toNat ≤ 90) :
    ∃ n, 65 ≤ n ∧ n ≤ 90 ∧ c = Char.ofNat n :=
  ⟨c.toNat, h.1, h.2, (Char.ofNat_toNat c).symm⟩

theorem tolower_eq_e (c : Char) (h : tolower c = 'e') : c = 'e' ∨ c = 'E' := by
  by_cases hc : 65 ≤ c.toNat ∧ c.toNat ≤ 90
  · obtain ⟨n, h1, h2, rfl⟩ := tolower_upper c hc
    right
    revert h
    interval_cases n <;> decide
  · left
    simpa [tolower, hc] using h

theorem tolower_eq_x (c : Char) (h : tolower c = 'x') : c = 'x' ∨ c = 'X' := by
  by_cases hc : 65 ≤ c.toNat ∧ c.toNat ≤ 90
  · obtain ⟨n, h1, h2, rfl⟩ := tolower_upper c hc
    right
    revert h
    interval_cases n <;> decide
  · left
    simpa [tolower, hc] using h

theorem scan_digits_append (ds : List (Fin 10)) (rest : List Char) (m n : Nat) :
    scan_digits (ds.map digit_char ++ rest) m n
      = scan_digits rest (digits_val ds m) (n + ds.length) := by
  induction ds generalizing m n with
  | nil => rfl
  | cons d ds ih =>
    have h1 := (digit_char_facts d).1
    have h2 := (digit_char_facts d).2.1
    rw [List.map_cons, List.cons_append, scan_digits, if_pos h1, h2, ih]
    simp only [digits_val, List.foldl_cons, List.length_cons]
    rw [show n + 1 + ds.length = n + (ds.length + 1) by omega]

theorem scan_digits_stop (rest : List Char) (m n : Nat)
    (h : ∀ c ∈ rest.head?, isdigit c = false) : scan_digits rest m n = (m, n, rest) := by
  cases rest with
  | nil => rfl
  | cons c cs =>
    have hc : isdigit c = false := h c (by simp)
    simp [scan_digits, hc]

theorem scan_mantissa_decimal (a : decimal) (rest : List Char)
    (h : stops (!a.frac.isEmpty) rest) :
    scan_mantissa ((a.d0 :: a.ds).map digit_char
        ++ (if a.frac.isEmpty then [] else '.' :: a.frac.map digit_char) ++ rest)
      = some (digits_val (a.d0 :: a.ds ++ a.frac) 0, a.frac.length, rest) := by
  unfold scan_mantissa
  rw [List.append_assoc, scan_digits_append]
  cases hf : a.frac with
  | nil =>
    rw [hf] at h
    simp only [List.isEmpty_nil, if_true, List.nil_append, List.append_nil, List.length_nil]
    have hstop : ∀ c ∈ rest.head?, isdigit c = false := fun c hc => (h c hc).1
    rw [scan_digits_stop rest _ _ hstop]
    cases rest with
    | nil => simp
    | cons c cs =>
      have hc := (h c (by simp)).2.2.2 (by simp)
      simp [hc.1]
  | cons f fs =>
    rw [hf] at h
    have hstop : ∀ c ∈ rest.head?, isdigit c = false := fun c hc => (h c hc).1
    simp only [List.isEmpty_cons, Bool.false_eq_true, if_false, List.cons_append]
    have hdot : ∀ c ∈ (('.' :: ((f :: fs).map digit_char ++ rest)) : List Char).head?,
        isdigit c = false := by
      intro c hc
      simp only [List.head?_cons, Option.mem_def, Option.some.injEq] at hc
      subst hc
      decide
    rw [scan_digits_stop _ _ _ hdot]
    simp only [if_true]
    rw [scan_digits_append, scan_digits_stop rest _ _ hstop]
    simp [digits_val, List.foldl_append]

/-- The scanner of `%Lf` takes digits one by one. -/
theorem collect_digits (ds : List (Fin 10)) (rest : List Char) (gd : Bool) (buf : List Char) :
    collect (ds.map digit_char ++ rest) ⟨false, true, gd, false, false⟩ buf
      = collect rest ⟨false, true, gd, false, false⟩ (buf ++ ds.map digit_char) := by
  induction ds generalizing buf with
  | nil => simp
  | cons d ds ih =>
    have h1 := (digit_char_facts d).1
    rw [List.map_cons, List.cons_append, collect, if_pos h1, ih]
    simp

/-- The scanner of `%Lf` stops after a decimal mantissa at a character that is no digit, no
exponent letter and, if the mantissa has a point, no point. -/
theorem collect_stop (rest : List Char) (gd : Bool) (buf : List Char)
    (h : ∀ c ∈ rest.head?, isdigit c = false ∧ c ≠ 'e' ∧ c ≠ 'E' ∧ (gd = false → c ≠ '.')) :
    collect rest ⟨false, true, gd, false, false⟩ buf = (buf, rest) := by
  cases rest with
  | nil => rfl
  | cons c cs =>
    obtain ⟨h1, h2, h3, h4⟩ := h c (by simp)
    have he : tolower c ≠ 'e' := fun hc => (tolower_eq_e c hc).elim h2 h3
    cases gd with
    | true => simp [collect, h1, he]
    | false => simp [collect, h1, he, h4 rfl]

/-- The scanner of `%Lf` collects the digits and the fraction of a decimal literal. -/
theorem collect_decimal (a : decimal) (rest : List Char) (buf : List Char)
    (h : stops (!a.frac.isEmpty) rest) :
    collect (a.ds.map digit_char
        ++ (if a.frac.isEmpty then [] else '.' :: a.frac.map digit_char) ++ rest)
        ⟨false, true, false, false, false⟩ buf
      = (buf ++ (a.ds.map digit_char
          ++ (if a.frac.isEmpty then [] else '.' :: a.frac.map digit_char)), rest) := by
  rw [List.append_assoc, collect_digits]
  cases hf : a.frac with
  | nil =>
    rw [hf] at h
    simp only [List.isEmpty_nil, if_true, List.nil_append, List.append_nil]
    exact collect_stop rest false _
      (fun c hc => ⟨(h c hc).1, (h c hc).2.1, (h c hc).2.2.1, fun _ => ((h c hc).2.2.2 rfl).1⟩)
  | cons f fs =>
    rw [hf] at h
    simp only [List.isEmpty_cons, Bool.false_eq_true, if_false, List.cons_append]
    have hdot : isdigit '.' = false := by decide
    rw [collect]
    simp only [hdot, Bool.false_eq_true, if_false]
    have step : collect ((f :: fs).map digit_char ++ rest) ⟨false, true, true, false, false⟩
        (buf ++ a.ds.map digit_char ++ ['.'])
        = (buf ++ a.ds.map digit_char ++ ['.'] ++ (f :: fs).map digit_char, rest) := by
      rw [collect_digits]
      exact collect_stop rest true _
        (fun c hc => ⟨(h c hc).1, (h c hc).2.1, (h c hc).2.2.1, fun hh => absurd hh (by decide)⟩)
    simpa using step

theorem stops_nil (b : Bool) : stops b [] := by
  intro c hc
  simp at hc

theorem decimal_no_hex (a : decimal) (rest : List Char) (h : stops (!a.frac.isEmpty) rest) :
    ∀ x ∈ (a.ds.map digit_char ++ (if a.frac.isEmpty then [] else '.' :: a.frac.map digit_char)
          ++ rest).head?, tolower x ≠ 'x' := by
  intro x hx hl
  have hxx := tolower_eq_x x hl
  cases hds : a.ds with
  | cons d ds =>
    rw [hds] at hx
    simp only [List.map_cons, List.cons_append, List.head?_cons, Option.mem_def,
      Option.some.injEq] at hx
    subst hx
    have hf := digit_char_facts d
    rw [hf.2.2.2.2.2.1] at hl
    exact hf.2.2.2.2.2.2.2.2.1 hl
  | nil =>
    rw [hds] at hx
    cases hf : a.frac with
    | cons f fs =>
      rw [hf] at hx
      simp only [List.map_nil, List.nil_append, List.isEmpty_cons, Bool.false_eq_true, if_false,
        List.cons_append, List.head?_cons, Option.mem_def, Option.some.injEq] at hx
      subst hx
      exact absurd hl (by decide)
    | nil =>
      rw [hf] at h hx
      simp only [List.map_nil, List.nil_append, List.isEmpty_nil, if_true] at hx
      have hc := (h x hx).2.2.2 (by simp)
      exact hxx.elim hc.2.1 hc.2.2

/-- After a digit that is not followed by `x` or `X`, the collection goes on from the state in
which a digit has been seen. -/
theorem collect_start_digit (sign : List Char) (d : Fin 10) (cs : List Char)
    (hx : ∀ x ∈ cs.head?, tolower x ≠ 'x') :
    collect (collect_start sign (digit_char d) cs).2.2 (collect_start sign (digit_char d) cs).1
        (collect_start sign (digit_char d) cs).2.1
      = collect cs ⟨false, true, false, false, false⟩ (sign ++ [digit_char d])
    ∧ (collect_start sign (digit_char d) cs).1.hex = false := by
  have h1 := (digit_char_facts d).1
  by_cases h0 : digit_char d = '0'
  · cases cs with
    | nil => simp [collect_start, h0]
    | cons x more =>
      have hxx : tolower x ≠ 'x' := hx x (by simp)
      simp [collect_start, h0, hxx]
  · simp only [collect_start, h0, if_false]
    rw [collect, if_pos h1]
    simp

/-- The text that `%Lf` collects on a decimal literal is the literal. -/
theorem collect_body_decimal (sign : List Char) (a : decimal) (rest : List Char)
    (h : stops (!a.frac.isEmpty) rest) :
    collect_body sign ((a.d0 :: a.ds).map digit_char
        ++ (if a.frac.isEmpty then [] else '.' :: a.frac.map digit_char) ++ rest)
      = some (sign ++ ((a.d0 :: a.ds).map digit_char
        ++ (if a.frac.isEmpty then [] else '.' :: a.frac.map digit_char)), rest) := by
  obtain ⟨-, -, -, -, -, hl, hi, hn, -, -, -⟩ := digit_char_facts a.d0
  obtain ⟨hc, hh⟩ := collect_start_digit sign a.d0 _ (decimal_no_hex a rest h)
  have hcd := collect_decimal a rest (sign ++ [digit_char a.d0]) h
  simp only [List.map_cons, List.cons_append, collect_body, hl, hn, hi, if_false, hc, hh, hcd]
  simp

theorem hex_mantissa_none (c : Char) (tail : List Char) (hx : ∀ x ∈ tail.head?, tolower x ≠ 'x') :
    hex_mantissa (c :: tail) = none := by
  cases tail with
  | nil => rfl
  | cons x r =>
    have hxx : tolower x ≠ 'x' := hx x (by simp)
    simp [hex_mantissa, hxx]

theorem take3_ne (c l : Char) (tail ls : List Char) (h : tolower c ≠ l) :
    ((c :: tail).take 3).map tolower ≠ l :: ls := by
  intro hh
  rw [show (3 : Nat) = 2 + 1 from rfl, List.take_succ_cons, List.map_cons] at hh
  exact h (List.cons.inj hh).1

/-- The value that `strtold` gives to a sign and a decimal mantissa that ends the text. -/
theorem strtold_mantissa (neg : Bool) (d : Fin 10) (tail : List Char) (m nfrac : Nat)
    (hx : ∀ x ∈ tail.head?, tolower x ≠ 'x')
    (hm : scan_mantissa (digit_char d :: tail) = some (m, nfrac, [])) :
    strtold ((if neg then ['-'] else []) ++ digit_char d :: tail)
      = some (.fin (if neg then -((m : ℚ) / 10 ^ nfrac) else (m : ℚ) / 10 ^ nfrac)) := by
  obtain ⟨-, -, -, hminus, hplus, hl, hi, hn, -, -, -⟩ := digit_char_facts d
  have hinf : ((digit_char d :: tail).take 3).map tolower ≠ ['i', 'n', 'f'] :=
    take3_ne _ _ _ _ (by rw [hl]; exact hi)
  have hnan : ((digit_char d :: tail).take 3).map tolower ≠ ['n', 'a', 'n'] :=
    take3_ne _ _ _ _ (by rw [hl]; exact hn)
  have hhex := hex_mantissa_none (digit_char d) tail hx
  cases neg with
  | false =>
    simp only [strtold, Bool.false_eq_true, if_false, List.nil_append, hminus, hplus, hinf,
      hnan, hhex, hm, scan_exponent, scale]
  | true =>
    simp only [strtold, if_true, List.singleton_append, hinf, hnan, hhex, hm, scan_exponent,
      scale, if_false]

/-- The value that `strtold` gives to the text of a decimal literal is the value of the
literal. -/
theorem strtold_decimal (a : decimal) : strtold a.text = some (.fin a.val) := by
  have hm := scan_mantissa_decimal a [] (stops_nil _)
  have hx := decimal_no_hex a [] (stops_nil _)
  simp only [List.append_nil, List.map_cons, List.cons_append] at hm hx
  have h := strtold_mantissa a.neg a.d0 _ _ _ hx hm
  simp only [decimal.text, decimal.val, List.map_cons, List.cons_append, List.append_assoc]
  exact h

/-- A `%Lf` conversion reads a decimal literal whole, with its value, when the text after the
literal cannot continue the number. -/
theorem scan_Lf_decimal (a : decimal) (rest : List Char) (h : stops (!a.frac.isEmpty) rest) :
    scan_Lf (a.text ++ rest) = .ok (.fin a.val) rest := by
  have hv := strtold_decimal a
  obtain ⟨-, -, hsp, hminus, hplus, -⟩ := digit_char_facts a.d0
  cases hneg : a.neg with
  | false =>
    have hb := collect_body_decimal [] a rest h
    have ht : a.text = (a.d0 :: a.ds).map digit_char
        ++ (if a.frac.isEmpty then [] else '.' :: a.frac.map digit_char) := by
      simp [decimal.text, hneg]
    rw [ht] at hv ⊢
    simp only [List.map_cons, List.cons_append, List.nil_append] at hb hv ⊢
    simp only [scan_Lf, List.dropWhile_cons, hsp, hminus, hplus, or_self, if_false, hb, hv,
      Bool.false_eq_true]
  | true =>
    have hb := collect_body_decimal ['-'] a rest h
    have ht : a.text = '-' :: ((a.d0 :: a.ds).map digit_char
        ++ (if a.frac.isEmpty then [] else '.' :: a.frac.map digit_char)) := by
      simp [decimal.text, hneg]
    have hsp2 : isspace '-' = false := by decide
    rw [ht] at hv ⊢
    simp only [List.map_cons, List.cons_append, List.singleton_append, List.nil_append]
      at hb hv ⊢
    simp only [scan_Lf, List.dropWhile_cons, hsp2, true_or, if_true, hb, hv,
      Bool.false_eq_true, if_false]

/-- A `%Lf` conversion on an integer literal that is followed by a point takes the point as
part of the number. -/
theorem scan_Lf_integer_point (neg : Bool) (d0 : Fin 10) (ds : List (Fin 10)) (r : List Char)
    (hr : ∀ c ∈ r.head?, isdigit c = false ∧ c ≠ 'e' ∧ c ≠ 'E') :
    scan_Lf ((⟨neg, d0, ds, []⟩ : decimal).text ++ '.' :: r)
      = .ok (.fin (⟨neg, d0, ds, []⟩ : decimal).val) r := by
  have hdot : ∀ c ∈ (['.'] : List Char).head?, isdigit c = false := by
    intro c hc
    simp only [List.head?_cons, Option.mem_def, Option.some.injEq] at hc
    subst hc
    decide
  have hx : ∀ x ∈ (ds.map digit_char ++ '.' :: r).head?, tolower x ≠ 'x' := by
    intro x hx
    cases ds with
    | nil =>
      simp only [List.map_nil, List.nil_append, List.head?_cons, Option.mem_def,
        Option.some.injEq] at hx
      subst hx
      decide
    | cons d ds =>
      simp only [List.map_cons, List.cons_append, List.head?_cons, Option.mem_def,
        Option.some.injEq] at hx
      subst hx
      rw [(digit_char_facts d).2.2.2.2.2.1]
      exact (digit_char_facts d).2.2.2.2.2.2.2.2.1
  have hx2 : ∀ x ∈ (ds.map digit_char ++ ['.']).head?, tolower x ≠ 'x' := by
    intro x hx0
    apply hx x
    cases ds with
    | nil => simpa using hx0
    | cons d ds => simpa using hx0
  have hm : scan_mantissa (digit_char d0 :: (ds.map digit_char ++ ['.']))
      = some (digits_val (d0 :: ds) 0, 0, []) := by
    have h0 := scan_digits_append (d0 :: ds) ['.'] 0 0
    simp only [List.map_cons, List.cons_append] at h0
    unfold scan_mantissa
    rw [h0, scan_digits_stop _ _ _ hdot]
    simp [scan_digits]
  have hv := strtold_mantissa neg d0 _ _ _ hx2 hm
  have hcol : ∀ sign : List Char,
      collect_body sign (digit_char d0 :: (ds.map digit_char ++ '.' :: r))
        = some (sign ++ digit_char d0 :: (ds.map digit_char ++ ['.']), r) := by
    intro sign
    obtain ⟨-, -, -, -, -, hl, hi, hn, -, -, -⟩ := digit_char_facts d0
    obtain ⟨hc, hh⟩ := collect_start_digit sign d0 _ hx
    have hd : isdigit '.' = false := by decide
    have hstep : collect (ds.map digit_char ++ '.' :: r) ⟨false, true, false, false, false⟩
        (sign ++ [digit_char d0])
        = (sign ++ [digit_char d0] ++ ds.map digit_char ++ ['.'], r) := by
      rw [collect_digits, collect]
      simp only [hd, Bool.false_eq_true, if_false]
      have := collect_stop r true (sign ++ [digit_char d0] ++ ds.map digit_char ++ ['.'])
        (fun c hc => ⟨(hr c hc).1, (hr c hc).2.1, (hr c hc).2.2, fun hh => absurd hh (by decide)⟩)
      simpa using this
    simp only [collect_body, hl, hn, hi, if_false, hc, hh, hstep]
    simp
  obtain ⟨-, -, hsp, hminus, hplus, -⟩ := digit_char_facts d0
  cases neg with
  | false =>
    have hb := hcol []
    simp only [List.nil_append, Bool.false_eq_true, if_false] at hb hv
    simp only [scan_Lf, decimal.text, decimal.val, Bool.false_eq_true, if_false,
      List.nil_append, List.map_cons, List.cons_append, List.dropWhile_cons, hsp, hminus, hplus,
      or_self, hb, hv, List.isEmpty_nil, if_true, List.append_nil, List.length_nil]
  | true =>
    have hb := hcol ['-']
    have hsp2 : isspace '-' = false := by decide
    simp only [List.singleton_append, if_true] at hb hv
    simp only [scan_Lf, decimal.text, decimal.val, if_true, List.singleton_append,
      List.nil_append, List.map_cons, List.cons_append, List.dropWhile_cons, hsp2,
      Bool.false_eq_true, if_false, true_or, hb, hv, List.isEmpty_nil, List.append_nil,
      List.length_nil]

/-! ## Range texts -/

theorem stops_cons (b : Bool) (c : Char) (r : List Char)
    (h : isdigit c = false ∧ c ≠ 'e' ∧ c ≠ 'E' ∧ c ≠ '.' ∧ c ≠ 'x' ∧ c ≠ 'X') :
    stops b (c :: r) := by
  intro d hd
  simp only [List.head?_cons, Option.mem_def, Option.some.injEq] at hd
  subst hd
  exact ⟨h.1, h.2.1, h.2.2.1, fun _ => h.2.2.2⟩

theorem directives_x :
    directives "x:%Lf..%Lf/y:%Lf..%Lf".toList
      = [.lit 'x', .lit ':', .Lf, .lit '.', .lit '.', .Lf, .lit '/', .lit 'y', .lit ':', .Lf,
         .lit '.', .lit '.', .Lf] := by
  decide

theorem directives_c :
    directives "c:%Lf+%Lfi/w:%Lf".toList
      = [.lit 'c', .lit ':', .Lf, .lit '+', .Lf, .lit 'i', .lit '/', .lit 'w', .lit ':', .Lf] := by
  decide

/-- The first `sscanf` of `range_parse` assigns nothing when the text starts with `c`. -/
theorem sscanf_x_on_c (r : List Char) :
    sscanf ('c' :: r) "x:%Lf..%Lf/y:%Lf..%Lf" = (0, []) := by
  rw [sscanf, directives_x]
  simp [sscanf_go]

/-- The second `sscanf` of `range_parse` assigns nothing when the text starts with `x`. -/
theorem sscanf_c_on_x (r : List Char) :
    sscanf ('x' :: r) "c:%Lf+%Lfi/w:%Lf" = (0, []) := by
  rw [sscanf, directives_c]
  simp [sscanf_go]

theorem sscanf_center (cx cy w : decimal) :
    sscanf ('c' :: ':' :: (cx.text ++ '+' :: (cy.text ++ 'i' :: '/' :: 'w' :: ':' :: w.text)))
        "c:%Lf+%Lfi/w:%Lf"
      = (3, [.fin cx.val, .fin cy.val, .fin w.val]) := by
  have h1 : scan_Lf (cx.text ++ '+' :: (cy.text ++ 'i' :: '/' :: 'w' :: ':' :: w.text))
      = .ok (.fin cx.val) ('+' :: (cy.text ++ 'i' :: '/' :: 'w' :: ':' :: w.text)) :=
    scan_Lf_decimal cx _ (stops_cons _ _ _ (by decide))
  have h2 : scan_Lf (cy.text ++ 'i' :: '/' :: 'w' :: ':' :: w.text)
      = .ok (.fin cy.val) ('i' :: '/' :: 'w' :: ':' :: w.text) :=
    scan_Lf_decimal cy _ (stops_cons _ _ _ (by decide))
  have h3 : scan_Lf w.text = .ok (.fin w.val) [] := by
    have := scan_Lf_decimal w [] (stops_nil _)
    rwa [List.append_nil] at this
  rw [sscanf, directives_c]
  simp [sscanf_go, h1, h2, h3]

theorem rounded_fin (v : xreal) : rounded xreal.fin v = v := by
  cases v <;> rfl

theorem toRange_toX (r : range) : r.toX.toRange = some r :=
  rfl

/-- In exact arithmetic and with numbers for bounds, `range_parse` on the globals is
`range_parse_r` on the default range. -/
theorem range_parse_of_r (arg : List Char) (s : State) (n : Int) (d : range)
    (h : range_parse_r xreal.fin arg s.rg_def.toX = (n, d.toX)) :
    range_parse arg s = some (n, { s with rg_def := d }) := by
  simp only [range_parse, h, toRange_toX]

/-- The first branch of `range_parse`: four numbers were assigned. -/
theorem range_parse_r_explicit (rnd : ℚ → xreal) (arg : List Char) (d : xrange)
    (a b c e : xreal) (h : sscanf arg "x:%Lf..%Lf/y:%Lf..%Lf" = (4, [a, b, c, e])) :
    range_parse_r rnd arg d = (0, ⟨rounded rnd a, rounded rnd b, rounded rnd c, rounded rnd e⟩) := by
  simp [range_parse_r, h]

/-- The second branch of `range_parse`: the first format did not assign four numbers and the
second one assigned three. -/
theorem range_parse_r_center (rnd : ℚ → xreal) (arg : List Char) (d : xrange)
    (a b c : xreal) (h1 : (sscanf arg "x:%Lf..%Lf/y:%Lf..%Lf").1 ≠ 4)
    (h2 : sscanf arg "c:%Lf+%Lfi/w:%Lf" = (3, [a, b, c])) :
    range_parse_r rnd arg d
      = (0, ⟨rounded rnd ((rounded rnd a).sub (rounded rnd ((rounded rnd c).mul (.fin 0.5)))),
          rounded rnd ((rounded rnd a).add (rounded rnd ((rounded rnd c).mul (.fin 0.5)))),
          rounded rnd b, rounded rnd b⟩) := by
  simp [range_parse_r, h1, h2]

/-- The last branch of `range_parse`: neither format assigned all its numbers. -/
theorem range_parse_r_reject (rnd : ℚ → xreal) (arg : List Char) (d : xrange)
    (h1 : (sscanf arg "x:%Lf..%Lf/y:%Lf..%Lf").1 ≠ 4)
    (h2 : (sscanf arg "c:%Lf+%Lfi/w:%Lf").1 ≠ 3) :
    range_parse_r rnd arg d = (1, d) := by
  simp [range_parse_r, h1, h2]

/-- The center form is read by `range_parse` for all decimal literals, in exact arithmetic. -/
theorem center_text_parsed (a b c : decimal) (u : State) :
    range_parse ('c' :: ':' :: (a.text ++ '+' :: (b.text ++ 'i' :: '/' :: 'w' :: ':' :: c.text))) u
      = some (0, { u with
          rg_def := ⟨a.val - c.val * 0.5, a.val + c.val * 0.5, b.val, b.val⟩ }) := by
  apply range_parse_of_r
  rw [range_parse_r_center _ _ _ _ _ _ (by rw [sscanf_x_on_c]; decide) (sscanf_center a b c)]
  simp only [rounded_fin, xreal.mul, xreal.sub, xreal.add, xreal.neg, range.toX]
  norm_num
  ring

theorem stops_point (b : Bool) (r : List Char) (hb : b = true) : stops b ('.' :: r) := by
  intro d hd
  simp only [List.head?_cons, Option.mem_def, Option.some.injEq] at hd
  subst hd
  refine ⟨by decide, by decide, by decide, ?_⟩
  intro h
  rw [hb] at h
  exact absurd h (by decide)

theorem decimal_head_ne_point (b : decimal) (r : List Char) :
    ∃ c cs, b.text ++ r = c :: cs ∧ c ≠ '.' := by
  cases hneg : b.neg with
  | true =>
    have h : b.text ++ r = '-' :: (((b.d0 :: b.ds).map digit_char
        ++ (if b.frac.isEmpty then [] else '.' :: b.frac.map digit_char)) ++ r) := by
      simp only [decimal.text, hneg, if_true, List.singleton_append, List.cons_append,
        List.nil_append]
    exact ⟨_, _, h, by decide⟩
  | false =>
    have h : b.text ++ r = digit_char b.d0 :: ((b.ds.map digit_char
        ++ (if b.frac.isEmpty then [] else '.' :: b.frac.map digit_char)) ++ r) := by
      simp only [decimal.text, hneg, Bool.false_eq_true, if_false, List.nil_append,
        List.map_cons, List.cons_append]
    exact ⟨_, _, h, (digit_char_facts b.d0).2.2.2.2.2.2.2.2.2.2⟩

/-- The first `sscanf` of `range_parse` on `x:a..b...` with an integer literal `a`: the
conversion of `a` takes the first point, the directive `.` takes the second one, and the
second directive `.` meets the first character of `b`. -/
theorem sscanf_x_integer (neg : Bool) (d0 : Fin 10) (ds : List (Fin 10)) (b : decimal)
    (r : List Char) :
    sscanf ('x' :: ':' :: ((⟨neg, d0, ds, []⟩ : decimal).text ++ '.' :: '.' :: (b.text ++ r)))
        "x:%Lf..%Lf/y:%Lf..%Lf"
      = (1, [.fin (⟨neg, d0, ds, []⟩ : decimal).val]) := by
  have h1 := scan_Lf_integer_point neg d0 ds ('.' :: (b.text ++ r))
    (by
      intro c hc
      simp only [List.head?_cons, Option.mem_def, Option.some.injEq] at hc
      subst hc
      decide)
  obtain ⟨c, cs, hb, hc⟩ := decimal_head_ne_point b r
  rw [hb] at h1
  rw [sscanf, directives_x, hb]
  simp [sscanf_go, h1, hc]

/-- The first `sscanf` of `range_parse` on `x:a..b/y:c..d` when the literals `a` and `c` have
a point: all four numbers are assigned. -/
theorem sscanf_explicit (a b c d : decimal)
    (ha : a.frac.isEmpty = false) (hc : c.frac.isEmpty = false) :
    sscanf ('x' :: ':' :: (a.text ++ '.' :: '.' :: (b.text ++ '/' :: 'y' :: ':' ::
        (c.text ++ '.' :: '.' :: d.text)))) "x:%Lf..%Lf/y:%Lf..%Lf"
      = (4, [.fin a.val, .fin b.val, .fin c.val, .fin d.val]) := by
  have h1 := scan_Lf_decimal a ('.' :: '.' :: (b.text ++ '/' :: 'y' :: ':' ::
    (c.text ++ '.' :: '.' :: d.text))) (stops_point _ _ (by rw [ha]; rfl))
  have h2 := scan_Lf_decimal b ('/' :: 'y' :: ':' :: (c.text ++ '.' :: '.' :: d.text))
    (stops_cons _ _ _ (by decide))
  have h3 := scan_Lf_decimal c ('.' :: '.' :: d.text) (stops_point _ _ (by rw [hc]; rfl))
  have h4 : scan_Lf d.text = .ok (.fin d.val) [] := by
    have := scan_Lf_decimal d [] (stops_nil _)
    rwa [List.append_nil] at this
  rw [sscanf, directives_x]
  simp [sscanf_go, h1, h2, h3, h4]

/-- The explicit form is read as the spec says when the literals of `x1` and `y1` are written
with a point. -/
theorem range_parse_explicit_with_point (a b c d : decimal) (s : State)
    (ha : a.frac.isEmpty = false) (hc : c.frac.isEmpty = false) :
    range_parse ('x' :: ':' :: (a.text ++ '.' :: '.' :: (b.text ++ '/' :: 'y' :: ':' ::
        (c.text ++ '.' :: '.' :: d.text)))) s
      = some (0, { s with rg_def := ⟨a.val, b.val, c.val, d.val⟩ }) := by
  apply range_parse_of_r
  rw [range_parse_r_explicit _ _ _ _ _ _ _ (sscanf_explicit a b c d ha hc)]
  simp only [rounded_fin, range.toX]

/-- The example of the spec, `x:-2.5..1/y:-1.5..1.5`, is read as `(-2.5, 1, -1.5, 1.5)`. -/
theorem range_parse_explicit_example (s : State) :
    range_parse "x:-2.5..1/y:-1.5..1.5".toList s
      = some (0, { s with rg_def := ⟨-2.5, 1, -1.5, 1.5⟩ }) := by
  have h := range_parse_explicit_with_point ⟨true, 2, [], [5]⟩ ⟨false, 1, [], []⟩
    ⟨true, 1, [], [5]⟩ ⟨false, 1, [], [5]⟩ s rfl rfl
  have e1 : (⟨true, 2, [], [5]⟩ : decimal).text = "-2.5".toList := by decide
  have e2 : (⟨false, 1, [], []⟩ : decimal).text = "1".toList := by decide
  have e3 : (⟨true, 1, [], [5]⟩ : decimal).text = "-1.5".toList := by decide
  have e4 : (⟨false, 1, [], [5]⟩ : decimal).text = "1.5".toList := by decide
  have v1 : (⟨true, 2, [], [5]⟩ : decimal).val = -2.5 := by
    norm_num [decimal.val, digits_val, Fin.coe_ofNat_eq_mod]
  have v2 : (⟨false, 1, [], []⟩ : decimal).val = 1 := by
    norm_num [decimal.val, digits_val, Fin.coe_ofNat_eq_mod]
  have v3 : (⟨true, 1, [], [5]⟩ : decimal).val = -1.5 := by
    norm_num [decimal.val, digits_val, Fin.coe_ofNat_eq_mod]
  have v4 : (⟨false, 1, [], [5]⟩ : decimal).val = 1.5 := by
    norm_num [decimal.val, digits_val, Fin.coe_ofNat_eq_mod]
  rw [e1, e2, e3, e4, v1, v2, v3, v4] at h
  exact h

/-- A text of the form `x:a..b...` with an integer literal `a` is rejected, whatever the
rounding. -/
theorem range_parse_r_integer (rnd : ℚ → xreal) (neg : Bool) (d0 : Fin 10) (ds : List (Fin 10))
    (b : decimal) (r : List Char) (d : xrange) :
    range_parse_r rnd ('x' :: ':' :: ((⟨neg, d0, ds, []⟩ : decimal).text ++ '.' :: '.' ::
        (b.text ++ r))) d = (1, d) := by
  apply range_parse_r_reject
  · rw [sscanf_x_integer]
    show (1 : Int) ≠ 4
    decide
  · rw [sscanf_c_on_x]; decide

/-- C9 fails on the code: when `a` is an integer literal (no point), `range_parse` on the
text `x:a..b/y:c..d` returns 1 and leaves the default range as it was, for all decimal
literals `b`, `c`, `d`; so do the texts `x:1..2/y:3..4` and `x:-2..1/y:-1..1`. -/
theorem range_parse_integer_bound (neg : Bool) (d0 : Fin 10) (ds : List (Fin 10))
    (b c d : decimal) (s : State) :
    range_parse ('x' :: ':' :: ((⟨neg, d0, ds, []⟩ : decimal).text ++ '.' :: '.' ::
        (b.text ++ '/' :: 'y' :: ':' :: (c.text ++ '.' :: '.' :: d.text)))) s = some (1, s)
    ∧ range_parse "x:1..2/y:3..4".toList s = some (1, s)
    ∧ range_parse "x:-2..1/y:-1..1".toList s = some (1, s) := by
  refine ⟨?_, rfl, rfl⟩
  exact range_parse_of_r _ s 1 s.rg_def (range_parse_r_integer _ neg d0 ds b _ _)

/-- C10, as amended (center form, exact real arithmetic): for decimal literals `cx`, `cy` and
`w`, `range_parse` on the text `c:cx+cyi/w:w` returns 0 and sets the default range to
`x1 = cx - w/2`, `x2 = cx + w/2`, `y1 = y2 = cy`. With a rounding `rnd` of `long double` the
return value is 0 as well and the bounds are the rounded results of the same operations on the
rounded numbers. The text `c:-0.5+0i/w:3` gives `x1 = -2`, `x2 = 1`, `y1 = y2 = 0`, in exact
arithmetic and in the `long double` arithmetic of x86-64. -/
theorem range_parse_center (cx cy w : decimal) (s : State) :
    range_parse ('c' :: ':' :: (cx.text ++ '+' :: (cy.text ++ 'i' :: '/' :: 'w' :: ':' :: w.text))) s
        = some (0, { s with
            rg_def := ⟨cx.val - w.val / 2, cx.val + w.val / 2, cy.val, cy.val⟩ })
    ∧ (∀ (rnd : ℚ → xreal) (d : xrange),
        range_parse_r rnd
            ('c' :: ':' :: (cx.text ++ '+' :: (cy.text ++ 'i' :: '/' :: 'w' :: ':' :: w.text))) d
          = (0, ⟨rounded rnd ((rnd cx.val).sub (rounded rnd ((rnd w.val).mul (.fin 0.5)))),
              rounded rnd ((rnd cx.val).add (rounded rnd ((rnd w.val).mul (.fin 0.5)))),
              rnd cy.val, rnd cy.val⟩))
    ∧ range_parse "c:-0.5+0i/w:3".toList s
        = some (0, { s with rg_def := ⟨-2, 1, 0, 0⟩ })
    ∧ (∀ d : xrange, range_parse_r round_ld "c:-0.5+0i/w:3".toList d
        = (0, range.toX ⟨-2, 1, 0, 0⟩)) := by
  have hgen : ∀ a b c : decimal,
      range_parse ('c' :: ':' :: (a.text ++ '+' :: (b.text ++ 'i' :: '/' :: 'w' :: ':' :: c.text))) s
        = some (0, { s with rg_def := ⟨a.val - c.val / 2, a.val + c.val / 2, b.val, b.val⟩ }) := by
    intro a b c
    rw [center_text_parsed]
    norm_num
    ring
  refine ⟨hgen cx cy w, ?_, ?_, ?_⟩
  · intro rnd d
    rw [range_parse_r_center _ _ _ _ _ _ (by rw [sscanf_x_on_c]; decide) (sscanf_center cx cy w)]
    rfl
  · have h := hgen ⟨true, 0, [], [5]⟩ ⟨false, 0, [], []⟩ ⟨false, 3, [], []⟩
    have e1 : (⟨true, 0, [], [5]⟩ : decimal).text = "-0.5".toList := by decide
    have e2 : (⟨false, 0, [], []⟩ : decimal).text = "0".toList := by decide
    have e3 : (⟨false, 3, [], []⟩ : decimal).text = "3".toList := by decide
    have v1 : (⟨true, 0, [], [5]⟩ : decimal).val = -1 / 2 := by
      norm_num [decimal.val, digits_val, Fin.coe_ofNat_eq_mod]
    have v2 : (⟨false, 0, [], []⟩ : decimal).val = 0 := by
      norm_num [decimal.val, digits_val, Fin.coe_ofNat_eq_mod]
    have v3 : (⟨false, 3, [], []⟩ : decimal).val = 3 := by
      norm_num [decimal.val, digits_val, Fin.coe_ofNat_eq_mod]
    rw [e1, e2, e3, v1, v2, v3] at h
    norm_num at h
    exact h
  · intro d
    with_unfolding_all rfl

/-- C10 fails as stated: the program computes in `long double`. On x86-64 the text
`c:0.1+0.2i/w:0.3` is accepted, but the stored `x1` is not `0.1 - 0.3/2` and the stored `y1`
and `y2` are not `0.2`; and for `c:1+1i/w:0.00000000000000000001` the stored `x1` and `x2` are
both 1, not `1 - w/2` and `1 + w/2`. -/
theorem center_form_rounding_counterexample :
    range_parse_r round_ld "c:0.1+0.2i/w:0.3".toList initial.rg_def.toX
        = (0, ⟨.fin (-7378697629483820647 / 147573952589676412928), .fin (1 / 4),
            .fin (14757395258967641293 / 73786976294838206464),
            .fin (14757395258967641293 / 73786976294838206464)⟩)
      ∧ (-7378697629483820647 / 147573952589676412928 : ℚ) ≠ 0.1 - 0.3 / 2
      ∧ (14757395258967641293 / 73786976294838206464 : ℚ) ≠ 0.2
      ∧ range_parse_r round_ld "c:1+1i/w:0.00000000000000000001".toList initial.rg_def.toX
        = (0, ⟨.fin 1, .fin 1, .fin 1, .fin 1⟩)
      ∧ (1 : ℚ) ≠ 1 - 0.00000000000000000001 / 2 := by
  refine ⟨?_, by norm_num, by norm_num, ?_, by norm_num⟩
  · with_unfolding_all rfl
  · set_option maxRecDepth 100000 in with_unfolding_all rfl

/-! ## Repeated steps -/

theorem iterate_step_rg (n : Nat) (s : State) : ((field_step^[n]) s).rg = s.rg := by
  induction n with
  | zero => rfl
  | succ n ih => rw [Function.iterate_succ_apply', field_step_rg, ih]

theorem iterate_step_rows (n : Nat) (s : State) : ((field_step^[n]) s).fl.rows = s.fl.rows := by
  induction n with
  | zero => rfl
  | succ n ih => rw [Function.iterate_succ_apply', field_step_rows, ih]

theorem iterate_step_cols (n : Nat) (s : State) : ((field_step^[n]) s).fl.cols = s.fl.cols := by
  induction n with
  | zero => rfl
  | succ n ih => rw [Function.iterate_succ_apply', field_step_cols, ih]

/-- C12 (escape invariant at the origin): when the position of a grid cell maps, in the active
range that `field_fill` sets, to the point `c = 0`, then after `field_fill` and any number `n`
of `field_step` calls the cell holds `(0, 0)` with flag 1. -/
theorem origin_stays_bounded (s : State) (i j n : Nat)
    (hi : i < s.fl.rows) (hj : j < s.fl.cols)
    (hre : pointAt_re (field_fill s).rg s.fl.cols j = 0)
    (him : pointAt_im (field_fill s).rg s.fl.rows i = 0) :
    ((field_step^[n]) (field_fill s)).fl.point i j = ⟨0, 0, 1⟩ := by
  induction n with
  | zero =>
    rw [Function.iterate_zero_apply, field_fill_cell s i j hi hj, hre, him]
  | succ n ih =>
    rw [Function.iterate_succ_apply', field_step_point, iterate_step_rows, iterate_step_cols,
      iterate_step_rg, field_fill_rows, field_fill_cols, if_pos ⟨hi, hj⟩, ih]
    have hne : ¬ ((1 : Int) = 0) := by decide
    simp only [step_cell, hne, if_false, c_add, c_mul, c_abs, pointAt_re_eq, pointAt_im_eq,
      hre, him]
    norm_num

theorem centred_fill_rg : (field_fill centred).rg = ⟨-1 / 2, 3 / 2, -7 / 2, 1 / 2⟩ := by
  rw [field_fill_rg]
  have hd : centred.rg_def = ⟨-0.5, 1.5, -3.5, 0.5⟩ := rfl
  rw [hd]
  norm_num [fill_range]

theorem origin_stays_bounded_witness :
    0 < centred.fl.rows ∧ 0 < centred.fl.cols
      ∧ pointAt_re (field_fill centred).rg centred.fl.cols 0 = 0
      ∧ pointAt_im (field_fill centred).rg centred.fl.rows 0 = 0
      ∧ ((field_step^[7]) (field_fill centred)).fl.point 0 0 = ⟨0, 0, 1⟩ := by
  have hr : centred.fl.rows = 4 := rfl
  have hc : centred.fl.cols = 2 := rfl
  have hre : pointAt_re (field_fill centred).rg centred.fl.cols 0 = 0 := by
    rw [centred_fill_rg, hc]; norm_num [pointAt_re]
  have him : pointAt_im (field_fill centred).rg centred.fl.rows 0 = 0 := by
    rw [centred_fill_rg, hr]; norm_num [pointAt_im]
  exact ⟨by rw [hr]; decide, by rw [hc]; decide, hre, him,
    origin_stays_bounded centred 0 0 7 (by rw [hr]; decide) (by rw [hc]; decide) hre him⟩

/-! ## Filling twice, allocation default, cell independence -/

theorem field_eq_of_parts (f g : field) (hp : f.point = g.point) (hr : f.rows = g.rows)
    (hc : f.cols = g.cols) : f = g := by
  cases f
  cases g
  simp only at hp hr hc
  rw [hp, hr, hc]

/-- Running `field_fill` a second time changes neither the active range nor the grid. -/
theorem field_fill_twice (s : State) :
    (field_fill (field_fill s)).rg = (field_fill s).rg
      ∧ (field_fill (field_fill s)).fl = (field_fill s).fl := by
  have hrg : (field_fill (field_fill s)).rg = (field_fill s).rg := by
    rw [field_fill_rg (field_fill s), field_fill_rg s, field_fill_rg_def, field_fill_rows,
      field_fill_cols]
  refine ⟨hrg, field_eq_of_parts _ _ ?_ rfl rfl⟩
  funext a b
  rw [field_fill_point (field_fill s) a b, hrg, field_fill_rg_def, field_fill_rows,
    field_fill_cols, field_fill_point s a b]
  split <;> rfl

/-- C14 (verbatim bounds, idempotent resolution): for a default range with `y1 ≠ y2`, whatever
the grid size, `field_fill` makes the active range equal to the default range, leaves the
default range as it was, and a second `field_fill` yields the same active range and the same
grid. -/
theorem field_fill_verbatim (s : State) (hy : s.rg_def.y1 ≠ s.rg_def.y2) :
    (field_fill s).rg = s.rg_def
    ∧ (field_fill s).rg_def = s.rg_def
    ∧ (field_fill (field_fill s)).rg = (field_fill s).rg
    ∧ (field_fill (field_fill s)).fl = (field_fill s).fl
    ∧ (field_fill (field_fill s)).rg_def = s.rg_def := by
  refine ⟨?_, rfl, (field_fill_twice s).1, (field_fill_twice s).2, rfl⟩
  rw [field_fill_rg, fill_range_of_ne _ _ _ hy]

theorem field_fill_verbatim_witness :
    flipped.rg_def.y1 ≠ flipped.rg_def.y2
      ∧ (field_fill flipped).rg = ⟨-1, 1, 1, -1⟩
      ∧ (field_fill (field_fill flipped)).fl = (field_fill flipped).fl := by
  have hd : flipped.rg_def = ⟨-1, 1, 1, -1⟩ := rfl
  have hy : flipped.rg_def.y1 ≠ flipped.rg_def.y2 := by rw [hd]; norm_num
  have h := field_fill_verbatim flipped hy
  exact ⟨hy, by rw [h.1, hd], h.2.2.2.1⟩

theorem field_init_point (term : winsize) (s : State) (a b : Nat) :
    (field_init term s).fl.point a b = zero_cell := by
  unfold field_init; rfl

/-- C15, as amended: immediately after `field_init` every cell of the new grid holds `(0, 0)`
with flag 0 (escaped), the storage being zeroed by `calloc`; the `field_fill` that follows in
`resize` sets the flag of every grid cell to 1 (bounded). -/
theorem field_init_cells_zero (term : winsize) (s : State) (a b : Nat) :
    (field_init term s).fl.point a b = ⟨0, 0, 0⟩
    ∧ ((field_init term s).fl.point a b).flag = 0
    ∧ (a < (field_init term s).fl.rows → b < (field_init term s).fl.cols →
        ((field_fill (field_init term s)).fl.point a b).flag = 1) := by
  refine ⟨?_, ?_, ?_⟩
  · rw [field_init_point]; rfl
  · rw [field_init_point]; rfl
  · intro ha hb
    rw [field_fill_cell _ a b ha hb]

theorem field_init_cells_zero_witness :
    0 < (field_init ⟨2, 1⟩ initial).fl.rows ∧ 0 < (field_init ⟨2, 1⟩ initial).fl.cols
      ∧ ((field_init ⟨2, 1⟩ initial).fl.point 0 0).flag = 0
      ∧ ((field_fill (field_init ⟨2, 1⟩ initial)).fl.point 0 0).flag = 1 := by
  have h := field_init_cells_zero ⟨2, 1⟩ initial 0 0
  have hr : 0 < (field_init ⟨2, 1⟩ initial).fl.rows := by rw [field_init_rows]; decide
  have hc : 0 < (field_init ⟨2, 1⟩ initial).fl.cols := by rw [field_init_cols]; decide
  exact ⟨hr, hc, h.2.1, h.2.2 hr hc⟩

/-- C15 fails as stated: after `field_init` on a terminal of 2 rows and 1 column the grid has
4 rows and 2 columns and the flag of its cell `(0, 0)` is 0, not 1. -/
theorem field_init_flag_counterexample :
    (field_init ⟨2, 1⟩ initial).fl.rows = 4 ∧ (field_init ⟨2, 1⟩ initial).fl.cols = 2
      ∧ ((field_init ⟨2, 1⟩ initial).fl.point 0 0).flag = 0
      ∧ ((field_init ⟨2, 1⟩ initial).fl.point 0 0).flag ≠ 1 := by
  refine ⟨by rw [field_init_rows]; decide, by rw [field_init_cols]; decide, ?_, ?_⟩
  · rw [field_init_point]; rfl
  · rw [field_init_point]; decide

/-- C16 (cell independence): two grids of the same dimensions under the same active range that
agree on the cell `(i, j)` agree on that cell after `field_step`, whatever the other cells
hold; and `field_step` applies one function of the row, the column, the cell, the range and
the dimensions to every cell. -/
theorem field_step_cellwise (s t : State) (i j : Nat)
    (hrows : s.fl.rows = t.fl.rows) (hcols : s.fl.cols = t.fl.cols) (hrg : s.rg = t.rg)
    (hcell : s.fl.point i j = t.fl.point i j) :
    (field_step s).fl.point i j = (field_step t).fl.point i j
    ∧ ∃ f : Nat → Nat → complex → range → Nat → Nat → complex,
        ∀ (u : State) (a b : Nat),
          (field_step u).fl.point a b = f a b (u.fl.point a b) u.rg u.fl.rows u.fl.cols := by
  constructor
  · rw [field_step_point, field_step_point, hrows, hcols, hrg, hcell]
  · exact ⟨fun a b z rg rows cols =>
        if a < rows ∧ b < cols then
          step_cell rg ((rg.x2 - rg.x1) / (cols : ℚ)) ((rg.y1 - rg.y2) / (rows : ℚ)) a b z
        else z,
      fun u a b => field_step_point u a b⟩

theorem field_step_cellwise_witness :
    square.fl.rows = square_poked.fl.rows ∧ square.fl.cols = square_poked.fl.cols
      ∧ square.rg = square_poked.rg
      ∧ square.fl.point 0 0 = square_poked.fl.point 0 0
      ∧ square.fl.point 1 1 ≠ square_poked.fl.point 1 1
      ∧ (field_step square).fl.point 0 0 = (field_step square_poked).fl.point 0 0 := by
  have hcell : square.fl.point 0 0 = square_poked.fl.point 0 0 := by
    simp [square_poked, setPoint]
  have hdiff : square.fl.point 1 1 ≠ square_poked.fl.point 1 1 := by
    rw [square_point 1 1 (by decide) (by decide)]
    simp [square_poked, setPoint]
    norm_num
  exact ⟨rfl, rfl, rfl, hcell, hdiff, (field_step_cellwise square square_poked 0 0 rfl rfl rfl hcell).1⟩

/-! ## The status line -/

theorem field_out_status (u : State) :
    (field_out u).x0 = (u.rg.x1 + u.rg.x2) / 2 ∧ (field_out u).y0 = (u.rg.y1 + u.rg.y2) / 2
      ∧ (field_out u).dx = (u.rg.x2 - u.rg.x1) / 2 ∧ (field_out u).dy = (u.rg.y2 - u.rg.y1) / 2 := by
  simp only [field_out]
  refine ⟨?_, ?_, ?_, ?_⟩ <;> norm_num <;> ring

/-- C17 (status-line round trip): when the default range is the one that `range_parse` stores
for a center form `(cx, cy, w)`, in a grid with `rows > 0` and `cols > 0`, the status values
that `field_out` computes after `field_fill` are `x0 = cx`, `y0 = cy` and `dx = w/2`; in
every state `x0 = (x1 + x2)/2`, `y0 = (y1 + y2)/2`, `dx = (x2 - x1)/2`, `dy = (y2 - y1)/2`;
and for decimal literals `a`, `b`, `c` the text `c:a+bi/w:c` is stored by `range_parse` as
such a default range. -/
theorem status_round_trip (s : State) (cx cy w : ℚ)
    (_hrows : 0 < s.fl.rows) (_hcols : 0 < s.fl.cols)
    (hdef : s.rg_def = ⟨cx - w * 0.5, cx + w * 0.5, cy, cy⟩) :
    (field_out (field_fill s)).x0 = cx
    ∧ (field_out (field_fill s)).y0 = cy
    ∧ (field_out (field_fill s)).dx = w / 2
    ∧ (∀ u : State,
        (field_out u).x0 = (u.rg.x1 + u.rg.x2) / 2 ∧ (field_out u).y0 = (u.rg.y1 + u.rg.y2) / 2
          ∧ (field_out u).dx = (u.rg.x2 - u.rg.x1) / 2
          ∧ (field_out u).dy = (u.rg.y2 - u.rg.y1) / 2)
    ∧ (∀ (a b c : decimal) (u : State), ∃ v : State,
        range_parse ('c' :: ':' :: (a.text ++ '+' :: (b.text ++ 'i' :: '/' :: 'w' :: ':' :: c.text))) u
            = some (0, v)
          ∧ v.rg_def = ⟨a.val - c.val * 0.5, a.val + c.val * 0.5, b.val, b.val⟩
          ∧ v.fl = u.fl) := by
  have hrg : (field_fill s).rg
      = ⟨cx - w * 0.5, cx + w * 0.5,
         cy - 0.5 * (s.fl.rows : ℚ) / (s.fl.cols : ℚ) * (cx + w * 0.5 - (cx - w * 0.5)),
         cy + 0.5 * (s.fl.rows : ℚ) / (s.fl.cols : ℚ) * (cx + w * 0.5 - (cx - w * 0.5))⟩ := by
    rw [field_fill_rg, hdef]
    simp [fill_range]
  obtain ⟨h1, h2, h3, -⟩ := field_out_status (field_fill s)
  rw [hrg] at h1 h2 h3
  refine ⟨?_, ?_, ?_, field_out_status, ?_⟩
  · rw [h1]; norm_num
  · rw [h2]; norm_num
  · rw [h3]; norm_num; ring
  · intro a b c u
    exact ⟨_, center_text_parsed a b c u, rfl, rfl⟩

theorem status_round_trip_witness :
    0 < wide.fl.rows ∧ 0 < wide.fl.cols
      ∧ wide.rg_def = ⟨-0.5 - 3 * 0.5, -0.5 + 3 * 0.5, 0, 0⟩
      ∧ (field_out (field_fill wide)).x0 = -0.5
      ∧ (field_out (field_fill wide)).y0 = 0
      ∧ (field_out (field_fill wide)).dx = 3 / 2 := by
  have hd : wide.rg_def = ⟨-0.5 - 3 * 0.5, -0.5 + 3 * 0.5, 0, 0⟩ := by
    have h0 : wide.rg_def = ⟨-2, 1, 0, 0⟩ := rfl
    rw [h0]; norm_num
  have h := status_round_trip wide (-0.5) 0 3 (by decide) (by decide) hd
  exact ⟨by decide, by decide, hd, h.1, h.2.1, h.2.2.1⟩

/-! ## The cells that rendering reads -/

theorem mem_pattern_reads (i j a b : Nat) :
    (a, b) ∈ pattern_reads i j ↔ (i ≤ a ∧ a ≤ i + 3) ∧ (j ≤ b ∧ b ≤ j + 1) := by
  simp only [pattern_reads, List.mem_cons, Prod.mk.injEq, List.mem_singleton, List.mem_nil_iff,
    or_false]
  omega

set_option maxRecDepth 100000 in
theorem braille_range : ∀ d0 d1 d2 d3 d4 d5 d6 d7 : Bool,
    printf_s
      [Int.toNat 0xE2,
       Int.toNat ((0xA0 + ((if d6 then 1 else 0) * 2 ^ 0 + (if d7 then 1 else 0) * 2 ^ 1)) % 256),
       Int.toNat ((0x80 + ((if d0 then 1 else 0) * 2 ^ 0 + (if d1 then 1 else 0) * 2 ^ 1
          + (if d2 then 1 else 0) * 2 ^ 2 + (if d3 then 1 else 0) * 2 ^ 3
          + (if d4 then 1 else 0) * 2 ^ 4 + (if d5 then 1 else 0) * 2 ^ 5)) % 256),
       0]
      = [0xE2,
         Int.toNat ((0xA0 + ((if d6 then 1 else 0) * 2 ^ 0 + (if d7 then 1 else 0) * 2 ^ 1)) % 256),
         Int.toNat ((0x80 + ((if d0 then 1 else 0) * 2 ^ 0 + (if d1 then 1 else 0) * 2 ^ 1
          + (if d2 then 1 else 0) * 2 ^ 2 + (if d3 then 1 else 0) * 2 ^ 3
          + (if d4 then 1 else 0) * 2 ^ 4 + (if d5 then 1 else 0) * 2 ^ 5)) % 256)]
    ∧ 0xA0 ≤ Int.toNat ((0xA0 + ((if d6 then 1 else 0) * 2 ^ 0 + (if d7 then 1 else 0) * 2 ^ 1)) % 256)
    ∧ Int.toNat ((0xA0 + ((if d6 then 1 else 0) * 2 ^ 0 + (if d7 then 1 else 0) * 2 ^ 1)) % 256) ≤ 0xA3
    ∧ 0x80 ≤ Int.toNat ((0x80 + ((if d0 then 1 else 0) * 2 ^ 0 + (if d1 then 1 else 0) * 2 ^ 1
          + (if d2 then 1 else 0) * 2 ^ 2 + (if d3 then 1 else 0) * 2 ^ 3
          + (if d4 then 1 else 0) * 2 ^ 4 + (if d5 then 1 else 0) * 2 ^ 5)) % 256)
    ∧ Int.toNat ((0x80 + ((if d0 then 1 else 0) * 2 ^ 0 + (if d1 then 1 else 0) * 2 ^ 1
          + (if d2 then 1 else 0) * 2 ^ 2 + (if d3 then 1 else 0) * 2 ^ 3
          + (if d4 then 1 else 0) * 2 ^ 4 + (if d5 then 1 else 0) * 2 ^ 5)) % 256) ≤ 0xBF
    ∧ (Int.toNat (if d0 then 1 else 0) * 2 ^ 0 + Int.toNat (if d1 then 1 else 0) * 2 ^ 1
          + Int.toNat (if d2 then 1 else 0) * 2 ^ 2 + Int.toNat (if d3 then 1 else 0) * 2 ^ 3
          + Int.toNat (if d4 then 1 else 0) * 2 ^ 4 + Int.toNat (if d5 then 1 else 0) * 2 ^ 5
          + Int.toNat (if d6 then 1 else 0) * 2 ^ 6 + Int.toNat (if d7 then 1 else 0) * 2 ^ 7) < 256 := by
  decide

/-- In a grid of two-valued flags the glyph of a block that lies inside the grid is a Braille
character. -/
theorem glyph_of_two_valued (p : Nat → Nat → complex) (i j : Nat)
    (h : ∀ c ∈ pattern_reads i j, (p c.1 c.2).flag = 0 ∨ (p c.1 c.2).flag = 1) :
    ∃ b1 b2 n, printf_s (pattern p i j) = [0xE2, b1, b2]
      ∧ 0xA0 ≤ b1 ∧ b1 ≤ 0xA3 ∧ 0x80 ≤ b2 ∧ b2 ≤ 0xBF
      ∧ n < 256 ∧ printf_s (pattern p i j) = utf8 (0x2800 + n) := by
  obtain ⟨d0, e0⟩ := flag_cases _ (h (i, j) (by simp [pattern_reads]))
  obtain ⟨d1, e1⟩ := flag_cases _ (h (i + 1, j) (by simp [pattern_reads]))
  obtain ⟨d2, e2⟩ := flag_cases _ (h (i + 2, j) (by simp [pattern_reads]))
  obtain ⟨d3, e3⟩ := flag_cases _ (h (i, j + 1) (by simp [pattern_reads]))
  obtain ⟨d4, e4⟩ := flag_cases _ (h (i + 1, j + 1) (by simp [pattern_reads]))
  obtain ⟨d5, e5⟩ := flag_cases _ (h (i + 2, j + 1) (by simp [pattern_reads]))
  obtain ⟨d6, e6⟩ := flag_cases _ (h (i + 3, j) (by simp [pattern_reads]))
  obtain ⟨d7, e7⟩ := flag_cases _ (h (i + 3, j + 1) (by simp [pattern_reads]))
  simp only at e0 e1 e2 e3 e4 e5 e6 e7
  obtain ⟨r1, r2, r3, r4, r5, r6⟩ := braille_range d0 d1 d2 d3 d4 d5 d6 d7
  have hu := braille_bytes d0 d1 d2 d3 d4 d5 d6 d7
  simp only [pattern, e0, e1, e2, e3, e4, e5, e6, e7]
  exact ⟨_, _, _, r1, r2, r3, r4, r5, r6, hu⟩

theorem running_inv (s : State) (h : running s) :
    two_valued s ∧ 4 ∣ s.fl.rows ∧ 2 ∣ s.fl.cols := by
  induction h with
  | init term s =>
    refine ⟨?_, ?_, ?_⟩
    · intro a b _ _
      left
      rw [field_init_point]; rfl
    · rw [field_init_rows]; exact Dvd.intro _ rfl
    · rw [field_init_cols]; exact Dvd.intro _ rfl
  | fill s _ ih =>
    refine ⟨?_, ih.2.1, ih.2.2⟩
    intro a b ha hb
    right
    rw [field_fill_cell s a b ha hb]
  | step s _ ih =>
    refine ⟨?_, ih.2.1, ih.2.2⟩
    intro a b ha hb
    have ha2 : a < s.fl.rows := ha
    have hb2 : b < s.fl.cols := hb
    rw [field_step_point, if_pos ⟨ha2, hb2⟩]
    unfold step_cell
    split
    · exact ih.1 a b ha2 hb2
    · simp only
      split
      · right; rfl
      · left; rfl
  | toggle s _ ih => exact ih

theorem running_iterate (n : Nat) (s : State) (h : running s) : running ((field_step^[n]) s) := by
  induction n with
  | zero => exact h
  | succ n ih =>
    rw [Function.iterate_succ_apply']
    exact running.step _ ih

/-- C19 (two-valued flags): in every state that the program is in from its first `field_init`
on, in particular after `field_init`, after the `field_fill` that follows and after any number
of `field_step` calls, the flag of every grid cell is 0 or 1; and every glyph of the frame
that `field_out` prints then has first byte `0xE2`, second byte in `0xA0..0xA3` and third byte
in `0x80..0xBF`, and is the UTF-8 encoding of a code point `U+2800 + n` with `n < 256`. -/
theorem flags_two_valued (s : State) (h : running s) :
    two_valued s
    ∧ (∀ l ∈ field_out_lines s, ∀ g ∈ l, ∃ b1 b2 n,
        g = [0xE2, b1, b2] ∧ 0xA0 ≤ b1 ∧ b1 ≤ 0xA3 ∧ 0x80 ≤ b2 ∧ b2 ≤ 0xBF
          ∧ n < 256 ∧ g = utf8 (0x2800 + n))
    ∧ (∀ (term : winsize) (s0 : State) (n : Nat),
        running (field_init term s0) ∧ running (field_fill (field_init term s0))
          ∧ running ((field_step^[n]) (field_fill (field_init term s0)))) := by
  obtain ⟨htwo, ⟨k, hk⟩, ⟨m, hm⟩⟩ := running_inv s h
  refine ⟨htwo, ?_, ?_⟩
  · intro l hl g hg
    simp only [field_out_lines, List.mem_map, List.mem_range] at hl
    obtain ⟨bi, hbi, rfl⟩ := hl
    simp only [List.mem_map, List.mem_range] at hg
    obtain ⟨bj, hbj, rfl⟩ := hg
    apply glyph_of_two_valued
    rintro ⟨a, b⟩ hc
    rw [mem_pattern_reads] at hc
    exact htwo a b (by omega) (by omega)
  · intro term s0 n
    exact ⟨running.init term s0, running.fill _ (running.init term s0),
      running_iterate n _ (running.fill _ (running.init term s0))⟩

theorem flags_two_valued_witness :
    running (field_step (field_fill tiny))
      ∧ two_valued (field_step (field_fill tiny))
      ∧ (field_out (field_fill tiny)).text = [27, 91, 48, 59, 48, 72, 0xE2, 0xA3, 0xBF, 10] := by
  have hrun : running (field_step (field_fill tiny)) :=
    running.step _ (running.fill _ (running.init ⟨2, 1⟩ initial))
  exact ⟨hrun, (flags_two_valued _ hrun).1, by decide⟩


/-! ## What `range_parse` does to the default range -/

/-- The two outcomes of `range_parse`: the result is 1 and the default range is as before, or
the result is 0 and the default range is overwritten with bounds that depend on the text
alone. -/
theorem range_parse_r_cases (rnd : ℚ → xreal) (arg : List Char) (d : xrange) :
    range_parse_r rnd arg d = (1, d)
      ∨ ∃ b : xrange, ∀ t : xrange, range_parse_r rnd arg t = (0, b) := by
  by_cases h1 : (sscanf arg "x:%Lf..%Lf/y:%Lf..%Lf").1 = 4
  · right
    exact ⟨(range_parse_r rnd arg d).2, fun t => by simp only [range_parse_r, h1, if_true]⟩
  · by_cases h2 : (sscanf arg "c:%Lf+%Lfi/w:%Lf").1 = 3
    · right
      exact ⟨(range_parse_r rnd arg d).2,
        fun t => by simp only [range_parse_r, h1, h2, if_true, if_false]⟩
    · left
      exact range_parse_r_reject rnd arg d h1 h2

/-- The return value of `range_parse` depends on the text alone: not on the default range,
and not on the rounding. -/
theorem range_parse_r_code (rnd rnd2 : ℚ → xreal) (arg : List Char) (d d2 : xrange) :
    (range_parse_r rnd arg d).1 = (range_parse_r rnd2 arg d2).1 := by
  by_cases h1 : (sscanf arg "x:%Lf..%Lf/y:%Lf..%Lf").1 = 4
  · simp only [range_parse_r, h1, if_true]
  · by_cases h2 : (sscanf arg "c:%Lf+%Lfi/w:%Lf").1 = 3
    · simp only [range_parse_r, h1, h2, if_true, if_false]
    · simp only [range_parse_r, h1, h2, if_false]

/-- On the globals, `range_parse` gives the return value and the default range of
`range_parse_r` in exact arithmetic, and no result only when the text is accepted with an
infinity or `nan` among the bounds. -/
theorem range_parse_cases (arg : List Char) (s : State) :
    range_parse arg s = some (1, s)
      ∨ (∃ r : range, ∀ t : State, range_parse arg t = some (0, { t with rg_def := r }))
      ∨ (∃ b : xrange, b.toRange = none
          ∧ (∀ t : xrange, range_parse_r xreal.fin arg t = (0, b))
          ∧ ∀ t : State, range_parse arg t = none) := by
  rcases range_parse_r_cases xreal.fin arg s.rg_def.toX with h | ⟨b, hb⟩
  · left
    exact range_parse_of_r arg s 1 s.rg_def h
  · right
    cases hr : b.toRange with
    | none =>
      right
      exact ⟨b, hr, hb, fun t => by simp only [range_parse, hb, hr]⟩
    | some r =>
      left
      exact ⟨r, fun t => by simp only [range_parse, hb, hr]⟩

/-- An accepted range text changes the default range and nothing else. -/
theorem range_parse_accepts (arg : List Char) (s s' : State)
    (h : range_parse arg s = some (0, s')) :
    ∃ r : range, s' = { s with rg_def := r }
      ∧ ∀ t : State, range_parse arg t = some (0, { t with rg_def := r }) := by
  rcases range_parse_cases arg s with h1 | ⟨r, hr⟩ | ⟨b, -, -, hn⟩
  · rw [h1] at h
    simp only [Option.some.injEq, Prod.mk.injEq] at h
    exact absurd h.1 (by decide)
  · refine ⟨r, ?_, hr⟩
    rw [hr s] at h
    simp only [Option.some.injEq, Prod.mk.injEq, true_and] at h
    exact h.symm
  · rw [hn s] at h
    exact absurd h (by simp)

/-- C20 (atomic parse failure): for every text, every default range and every rounding of
`long double`, `range_parse` returns 0 or 1; when it returns 1 the default range is exactly as
before the call; when it returns 0 all four bounds of the default range are values that depend
on the text alone, whatever the default range was before. The return value does not depend on
the rounding or on the default range. The texts `x:abc`, `x:nope`, `c:none` and `x:1e` give 1;
the text `x:inf..1/y:0.5..1` gives 0, with an infinite `x1`. -/
theorem range_parse_atomic (rnd : ℚ → xreal) (arg : List Char) (d : xrange) :
    ((range_parse_r rnd arg d).1 = 0 ∨ (range_parse_r rnd arg d).1 = 1)
    ∧ ((range_parse_r rnd arg d).1 = 1 → (range_parse_r rnd arg d).2 = d)
    ∧ ((range_parse_r rnd arg d).1 = 0 →
        ∃ b : xrange, ∀ t : xrange, range_parse_r rnd arg t = (0, b))
    ∧ (∀ (rnd2 : ℚ → xreal) (t : xrange),
        (range_parse_r rnd2 arg t).1 = (range_parse_r rnd arg d).1)
    ∧ range_parse_r rnd "x:abc".toList d = (1, d)
    ∧ range_parse_r rnd "x:nope".toList d = (1, d)
    ∧ range_parse_r rnd "c:none".toList d = (1, d)
    ∧ range_parse_r rnd "x:1e".toList d = (1, d)
    ∧ range_parse_r rnd "x:inf..1/y:0.5..1".toList d
        = (0, ⟨.inf false, rnd 1, rnd (1 / 2), rnd 1⟩) := by
  refine ⟨?_, ?_, ?_, fun rnd2 t => range_parse_r_code rnd2 rnd arg t d, rfl, rfl, rfl, rfl, ?_⟩
  · rcases range_parse_r_cases rnd arg d with h | ⟨b, hb⟩
    · right; rw [h]
    · left; rw [hb d]
  · intro h1
    rcases range_parse_r_cases rnd arg d with h | ⟨b, hb⟩
    · rw [h]
    · rw [hb d] at h1
      exact absurd h1 (show ¬ (0 : Int) = 1 by decide)
  · intro h0
    rcases range_parse_r_cases rnd arg d with h | ⟨b, hb⟩
    · rw [h] at h0
      exact absurd h0 (show ¬ (1 : Int) = 0 by decide)
    · exact ⟨b, hb⟩
  · with_unfolding_all rfl

theorem range_parse_atomic_witness :
    (range_parse_r round_ld "x:nope".toList (range.toX ⟨-2.5, 1, 0, 0⟩)).1 = 1
      ∧ (range_parse_r round_ld "x:nope".toList (range.toX ⟨-2.5, 1, 0, 0⟩)).2
          = range.toX ⟨-2.5, 1, 0, 0⟩
      ∧ (range_parse_r round_ld "c:-0.5+0i/w:3".toList (range.toX ⟨-2.5, 1, 0, 0⟩)).1 = 0
      ∧ ∃ b : xrange, ∀ t : xrange, range_parse_r round_ld "c:-0.5+0i/w:3".toList t = (0, b) :=
  ⟨rfl,
    (range_parse_atomic round_ld "x:nope".toList (range.toX ⟨-2.5, 1, 0, 0⟩)).2.1 rfl,
    rfl,
    (range_parse_atomic round_ld "c:-0.5+0i/w:3".toList (range.toX ⟨-2.5, 1, 0, 0⟩)).2.2.1 rfl⟩

/-! ## Filling in floating-point arithmetic -/

/-- With exact arithmetic for rounding, and a grid with columns, `fill_range_r` is the active
range of `field_fill`. -/
theorem fill_range_r_exact (s : State) (hcols : 0 < s.fl.cols) :
    fill_range_r xreal.fin xreal.fin s.rg_def.toX s.fl.rows s.fl.cols = (field_fill s).rg.toX := by
  have hc : (s.fl.cols : ℚ) ≠ 0 := by
    have : 0 < (s.fl.cols : ℚ) := by exact_mod_cast hcols
    exact ne_of_gt this
  rw [field_fill_rg]
  by_cases h : s.rg_def.y1 - s.rg_def.y2 = 0
  · have h2 : s.rg_def.y1 + -s.rg_def.y2 = 0 := by rw [← sub_eq_add_neg]; exact h
    simp only [fill_range_r, fill_range, range.toX, rounded_fin, xreal.sub, xreal.add,
      xreal.neg, xreal.mul, xreal.div, xreal.is_zero, h, h2, hc, decide_True, if_true,
      if_false]
    congr 2 <;> ring
  · have h2 : ¬ s.rg_def.y1 + -s.rg_def.y2 = 0 := by rw [← sub_eq_add_neg]; exact h
    simp only [fill_range_r, fill_range, range.toX, rounded_fin, xreal.sub, xreal.add,
      xreal.neg, xreal.is_zero, h, h2, decide_False, if_false, Bool.false_eq_true]

/-- With exact arithmetic for rounding, `fill_point_r` is the point that `field_fill` writes
to a cell of the grid. -/
theorem fill_point_r_exact (s : State) (i j : Nat) (hi : i < s.fl.rows) (hj : j < s.fl.cols) :
    fill_point_r xreal.fin xreal.fin s.rg_def.toX s.fl.rows s.fl.cols i j
      = (.fin ((field_fill s).fl.point i j).r, .fin ((field_fill s).fl.point i j).i) := by
  have hc : (s.fl.cols : ℚ) ≠ 0 := by
    have : 0 < (s.fl.cols : ℚ) := by exact_mod_cast (by omega : 0 < s.fl.cols)
    exact ne_of_gt this
  have hr : (s.fl.rows : ℚ) ≠ 0 := by
    have : 0 < (s.fl.rows : ℚ) := by exact_mod_cast (by omega : 0 < s.fl.rows)
    exact ne_of_gt this
  have hx1 : (field_fill s).rg.x1 = s.rg_def.x1 := by rw [field_fill_rg, fill_range_x1]
  rw [field_fill_point, if_pos ⟨hi, hj⟩]
  unfold fill_point_r
  rw [fill_range_r_exact s (by omega)]
  simp only [range.toX, rounded_fin, xreal.sub, xreal.add, xreal.neg, xreal.mul, xreal.div,
    hc, hr, if_false, hx1, Prod.mk.injEq, xreal.fin.injEq]
  constructor <;> ring

/-! ## Order of the bounds -/

theorem fill_range_ordered (d : range) (rows cols : Nat) (hrows : 0 < rows) (hcols : 0 < cols)
    (hx : d.x1 < d.x2) (hy : d.y1 ≤ d.y2) :
    (fill_range d rows cols).x1 < (fill_range d rows cols).x2
      ∧ (fill_range d rows cols).y1 < (fill_range d rows cols).y2 := by
  have hr : (0 : ℚ) < (rows : ℚ) := by exact_mod_cast hrows
  have hc : (0 : ℚ) < (cols : ℚ) := by exact_mod_cast hcols
  unfold fill_range
  split
  · rename_i h0
    have hpos : 0 < 0.5 * (rows : ℚ) / (cols : ℚ) * (d.x2 - d.x1) := by
      have h1 : 0 < 0.5 * (rows : ℚ) / (cols : ℚ) := by positivity
      exact mul_pos h1 (by linarith)
    refine ⟨hx, ?_⟩
    simp only
    linarith
  · rename_i h0
    refine ⟨hx, lt_of_le_of_ne hy ?_⟩
    intro h
    exact h0 (by rw [h]; ring)

/-- C13, as amended (exact real arithmetic): when `range_parse` accepts a text and the default
range that it stores has `x1 < x2` and `y1 ≤ y2`, then in every grid with `rows > 0` and
`cols > 0` the active range after `field_fill` has `x1 < x2` and `y1 < y2`; this is so for
every center form `c:a+bi/w:c` whose width `c` is positive. -/
theorem fill_well_formed (arg : List Char) (s s' : State)
    (hrows : 0 < s.fl.rows) (hcols : 0 < s.fl.cols)
    (hparse : range_parse arg s = some (0, s'))
    (hx : s'.rg_def.x1 < s'.rg_def.x2) (hy : s'.rg_def.y1 ≤ s'.rg_def.y2) :
    ((field_fill s').rg.x1 < (field_fill s').rg.x2
      ∧ (field_fill s').rg.y1 < (field_fill s').rg.y2)
    ∧ (∀ (a b c : decimal) (u : State), 0 < u.fl.rows → 0 < u.fl.cols → 0 < c.val →
        ∃ v : State,
          range_parse
              ('c' :: ':' :: (a.text ++ '+' :: (b.text ++ 'i' :: '/' :: 'w' :: ':' :: c.text))) u
            = some (0, v)
          ∧ (field_fill v).rg.x1 < (field_fill v).rg.x2
          ∧ (field_fill v).rg.y1 < (field_fill v).rg.y2) := by
  constructor
  · obtain ⟨r, hs', -⟩ := range_parse_accepts arg s s' hparse
    have hfl : s'.fl = s.fl := by rw [hs']
    rw [field_fill_rg, hfl]
    exact fill_range_ordered _ _ _ hrows hcols hx hy
  · intro a b c u hr hc hw
    refine ⟨_, center_text_parsed a b c u, ?_⟩
    rw [field_fill_rg]
    apply fill_range_ordered _ _ _ hr hc
    · simp only
      linarith
    · exact le_refl _

theorem explicit_descending_parsed (s : State) :
    range_parse "x:1.5..0.5/y:1.5..0.5".toList s
      = some (0, { s with rg_def := ⟨1.5, 0.5, 1.5, 0.5⟩ }) := by
  have h := range_parse_explicit_with_point ⟨false, 1, [], [5]⟩ ⟨false, 0, [], [5]⟩
    ⟨false, 1, [], [5]⟩ ⟨false, 0, [], [5]⟩ s rfl rfl
  have e1 : (⟨false, 1, [], [5]⟩ : decimal).text = "1.5".toList := by decide
  have e2 : (⟨false, 0, [], [5]⟩ : decimal).text = "0.5".toList := by decide
  have v1 : (⟨false, 1, [], [5]⟩ : decimal).val = 1.5 := by
    norm_num [decimal.val, digits_val, Fin.coe_ofNat_eq_mod]
  have v2 : (⟨false, 0, [], [5]⟩ : decimal).val = 0.5 := by
    norm_num [decimal.val, digits_val, Fin.coe_ofNat_eq_mod]
  rw [e1, e2, v1, v2] at h
  exact h

/-- C13 fails as stated: `range_parse` accepts the text `x:1.5..0.5/y:1.5..0.5`, and in the
4-row by 2-column grid the active range after `field_fill` is `(1.5, 0.5, 1.5, 0.5)`, with
`x1 > x2` and `y1 > y2`. And bounds in ascending order are kept apart in exact arithmetic
only: on x86-64 the text `c:0+1i/w:0.00000000000000000001` is stored with `x1 < x2` and
`y1 = y2 = 1`, and in the 4-row by 2-column grid `field_fill` leaves `y1 = y2 = 1`, because
`1 - ratio` and `1 + ratio` round to 1; and the text `c:1+1i/w:0.00000000000000000001`, of
positive width, is stored with `x1 = x2 = 1`. -/
theorem descending_bounds_counterexample :
    range_parse "x:1.5..0.5/y:1.5..0.5".toList tiny
        = some (0, { tiny with rg_def := ⟨1.5, 0.5, 1.5, 0.5⟩ })
      ∧ 0 < tiny.fl.rows ∧ 0 < tiny.fl.cols
      ∧ (field_fill { tiny with rg_def := ⟨1.5, 0.5, 1.5, 0.5⟩ }).rg = ⟨1.5, 0.5, 1.5, 0.5⟩
      ∧ ¬ (field_fill { tiny with rg_def := ⟨1.5, 0.5, 1.5, 0.5⟩ }).rg.x1
          < (field_fill { tiny with rg_def := ⟨1.5, 0.5, 1.5, 0.5⟩ }).rg.x2
      ∧ ¬ (field_fill { tiny with rg_def := ⟨1.5, 0.5, 1.5, 0.5⟩ }).rg.y1
          < (field_fill { tiny with rg_def := ⟨1.5, 0.5, 1.5, 0.5⟩ }).rg.y2
      ∧ range_parse_r round_ld "c:0+1i/w:0.00000000000000000001".toList initial.rg_def.toX
          = (0, range.toX
              ⟨-(13611294676837538539 / 2722258935367507707706996859454145691648),
                13611294676837538539 / 2722258935367507707706996859454145691648, 1, 1⟩)
      ∧ (-(13611294676837538539 / 2722258935367507707706996859454145691648) : ℚ)
          < 13611294676837538539 / 2722258935367507707706996859454145691648
      ∧ fill_range_r round_ld round_d
            (range.toX ⟨-(13611294676837538539 / 2722258935367507707706996859454145691648),
              13611294676837538539 / 2722258935367507707706996859454145691648, 1, 1⟩) 4 2
          = range.toX ⟨-(13611294676837538539 / 2722258935367507707706996859454145691648),
              13611294676837538539 / 2722258935367507707706996859454145691648, 1, 1⟩
      ∧ range_parse_r round_ld "c:1+1i/w:0.00000000000000000001".toList initial.rg_def.toX
          = (0, range.toX ⟨1, 1, 1, 1⟩) := by
  have hrg : (field_fill { tiny with rg_def := ⟨1.5, 0.5, 1.5, 0.5⟩ }).rg = ⟨1.5, 0.5, 1.5, 0.5⟩ := by
    rw [field_fill_rg]
    apply fill_range_of_ne
    norm_num
  refine ⟨explicit_descending_parsed tiny, by decide, by decide, hrg, ?_, ?_, ?_, by norm_num,
    ?_, ?_⟩
  · rw [hrg]; norm_num
  · rw [hrg]; norm_num
  · set_option maxRecDepth 100000 in with_unfolding_all rfl
  · set_option maxRecDepth 100000 in with_unfolding_all rfl
  · set_option maxRecDepth 100000 in with_unfolding_all rfl

theorem fill_well_formed_witness :
    0 < tiny.fl.rows ∧ 0 < tiny.fl.cols
      ∧ range_parse "c:-0.5+0i/w:3".toList tiny = some (0, { tiny with rg_def := ⟨-2, 1, 0, 0⟩ })
      ∧ (field_fill { tiny with rg_def := ⟨-2, 1, 0, 0⟩ }).rg.x1
          < (field_fill { tiny with rg_def := ⟨-2, 1, 0, 0⟩ }).rg.x2
      ∧ (field_fill { tiny with rg_def := ⟨-2, 1, 0, 0⟩ }).rg.y1
          < (field_fill { tiny with rg_def := ⟨-2, 1, 0, 0⟩ }).rg.y2 := by
  have hp : range_parse "c:-0.5+0i/w:3".toList tiny
      = some (0, { tiny with rg_def := ⟨-2, 1, 0, 0⟩ }) := by
    have h := center_text_parsed ⟨true, 0, [], [5]⟩ ⟨false, 0, [], []⟩ ⟨false, 3, [], []⟩ tiny
    have e1 : (⟨true, 0, [], [5]⟩ : decimal).text = "-0.5".toList := by decide
    have e2 : (⟨false, 0, [], []⟩ : decimal).text = "0".toList := by decide
    have e3 : (⟨false, 3, [], []⟩ : decimal).text = "3".toList := by decide
    have v1 : (⟨true, 0, [], [5]⟩ : decimal).val = -1 / 2 := by
      norm_num [decimal.val, digits_val, Fin.coe_ofNat_eq_mod]
    have v2 : (⟨false, 0, [], []⟩ : decimal).val = 0 := by
      norm_num [decimal.val, digits_val, Fin.coe_ofNat_eq_mod]
    have v3 : (⟨false, 3, [], []⟩ : decimal).val = 3 := by
      norm_num [decimal.val, digits_val, Fin.coe_ofNat_eq_mod]
    rw [e1, e2, e3, v1, v2, v3] at h
    norm_num at h
    exact h
  have h := (fill_well_formed "c:-0.5+0i/w:3".toList tiny _ (by decide) (by decide) hp
    (by norm_num) (by norm_num)).1
  exact ⟨by decide, by decide, hp, h.1, h.2⟩


/-! ## Command line -/

theorem args_loop_nil (rnd : ℚ → xreal) (fs : List Char → file) (d : xrange) :
    args_loop rnd fs [] d = .ret () d := by
  rw [args_loop]

theorem file_not_range (a : List Char) (h : a = "-f".toList ∨ a = "--file".toList) :
    ¬ (a = "-r".toList ∨ a = "--range".toList) := by
  rcases h with rfl | rfl <;> decide

theorem help_not_range (a : List Char) (h : a = "-h".toList ∨ a = "--help".toList) :
    ¬ (a = "-r".toList ∨ a = "--range".toList) ∧ ¬ (a = "-f".toList ∨ a = "--file".toList) := by
  rcases h with rfl | rfl <;> decide

theorem args_loop_range (rnd : ℚ → xreal) (fs : List Char → file) (a v : List Char)
    (rest : List (List Char)) (d : xrange) (ha : a = "-r".toList ∨ a = "--range".toList) :
    args_loop rnd fs (a :: v :: rest) d
      = if (range_parse_r rnd v d).1 ≠ 0 then .exit INCORRECT_RANGE
        else args_loop rnd fs rest (range_parse_r rnd v d).2 := by
  rw [args_loop, if_pos ha]
  rfl

theorem args_loop_file (rnd : ℚ → xreal) (fs : List Char → file) (a v : List Char)
    (rest : List (List Char)) (d : xrange) (ha : a = "-f".toList ∨ a = "--file".toList) :
    args_loop rnd fs (a :: v :: rest) d
      = match file_parse rnd fs v d with
        | .exit code => .exit code
        | .ret r d2 => if r ≠ 0 then .exit INCORRECT_FILE else args_loop rnd fs rest d2 := by
  rw [args_loop, if_neg (file_not_range a ha), if_pos ha]
  rfl

theorem args_loop_last (rnd : ℚ → xreal) (fs : List Char → file) (a : List Char) (d : xrange)
    (ha : a = "-r".toList ∨ a = "--range".toList ∨ a = "-f".toList ∨ a = "--file".toList) :
    args_loop rnd fs [a] d = .exit MISSING_PARAM := by
  rw [args_loop]
  by_cases hr : a = "-r".toList ∨ a = "--range".toList
  · rw [if_pos hr]; rfl
  · have hf : a = "-f".toList ∨ a = "--file".toList := by
      rcases ha with h | h | h | h
      · exact absurd (Or.inl h) hr
      · exact absurd (Or.inr h) hr
      · exact Or.inl h
      · exact Or.inr h
    rw [if_neg hr, if_pos hf]; rfl

theorem args_loop_help (rnd : ℚ → xreal) (fs : List Char → file) (a : List Char)
    (rest : List (List Char)) (d : xrange) (ha : a = "-h".toList ∨ a = "--help".toList) :
    args_loop rnd fs (a :: rest) d = .exit NORMAL := by
  cases rest <;>
    (rw [args_loop, if_neg (help_not_range a ha).1, if_neg (help_not_range a ha).2, if_pos ha]
     rfl)

theorem args_loop_unknown (rnd : ℚ → xreal) (fs : List Char → file) (a : List Char)
    (rest : List (List Char)) (d : xrange)
    (h1 : ¬ (a = "-r".toList ∨ a = "--range".toList))
    (h2 : ¬ (a = "-f".toList ∨ a = "--file".toList))
    (h3 : ¬ (a = "-h".toList ∨ a = "--help".toList)) :
    args_loop rnd fs (a :: rest) d = .exit UNKNOWN_ARG := by
  cases rest <;>
    (rw [args_loop, if_neg h1, if_neg h2, if_neg h3]
     rfl)

theorem file_parse_failed (rnd : ℚ → xreal) (fs : List Char → file) (v : List Char) (d : xrange)
    (h : fs v = .missing ∨ fs v = .unreadable ∨ fs v = .text []) :
    file_parse rnd fs v d = .ret 1 d := by
  unfold file_parse
  rcases h with h | h | h <;> rw [h]
  all_goals rfl

theorem file_parse_text (rnd : ℚ → xreal) (fs : List Char → file) (v content buf : List Char)
    (d : xrange) (hfs : fs v = .text content) (hget : getline content = some buf) :
    file_parse rnd fs v d
      = if (range_parse_r rnd (c_str buf) d).1 ≠ 0 then .exit INCORRECT_RANGE
        else .ret 0 (range_parse_r rnd (c_str buf) d).2 := by
  unfold file_parse
  rw [hfs]
  simp only [hget]
  rfl

theorem getline_none (content : List Char) (h : getline content = none) : content = [] := by
  cases content with
  | nil => rfl
  | cons c cs => simp [getline] at h

theorem ret_of_accepted (rnd : ℚ → xreal) (fs : List Char → file) (args : List (List Char))
    (d t : xrange) (h : accepted rnd fs args d t) : args_loop rnd fs args d = .ret () t := by
  induction h with
  | done d => exact args_loop_nil rnd fs d
  | range a v rest d d2 t ha hp _ ih =>
    rw [args_loop_range rnd fs a v rest d ha, hp]
    simp only [ne_eq, not_true_eq_false, if_false]
    exact ih
  | file a v content buf rest d d2 t ha hfs hget hp _ ih =>
    rw [args_loop_file rnd fs a v rest d ha, file_parse_text rnd fs v content buf d hfs hget, hp]
    simp only [ne_eq, not_true_eq_false, if_false]
    exact ih

theorem accepted_of_ret (rnd : ℚ → xreal) (fs : List Char → file) (n : Nat) :
    ∀ (args : List (List Char)) (d t : xrange), args.length ≤ n →
      args_loop rnd fs args d = .ret () t → accepted rnd fs args d t := by
  induction n with
  | zero =>
    intro args d t hlen h
    cases args with
    | nil =>
      rw [args_loop_nil] at h
      simp only [result.ret.injEq, true_and] at h
      rw [← h]
      exact accepted.done d
    | cons a rest => simp at hlen
  | succ n ih =>
    intro args d t hlen h
    cases args with
    | nil =>
      rw [args_loop_nil] at h
      simp only [result.ret.injEq, true_and] at h
      rw [← h]
      exact accepted.done d
    | cons a rest =>
      by_cases hr : a = "-r".toList ∨ a = "--range".toList
      · cases rest with
        | nil =>
          rw [args_loop_last rnd fs a d
            (by rcases hr with h | h; exact Or.inl h; exact Or.inr (Or.inl h))] at h
          exact absurd h (by simp)
        | cons v rest2 =>
          rw [args_loop_range rnd fs a v rest2 d hr] at h
          by_cases hr0 : (range_parse_r rnd v d).1 = 0
          · simp only [hr0, ne_eq, not_true_eq_false, if_false] at h
            have hlen2 : rest2.length ≤ n := by
              simp only [List.length_cons] at hlen; omega
            exact accepted.range a v rest2 d (range_parse_r rnd v d).2 t hr
              (Prod.ext hr0 rfl) (ih rest2 _ t hlen2 h)
          · simp only [ne_eq, hr0, not_false_eq_true, if_true] at h
            exact absurd h (by simp)
      · by_cases hf : a = "-f".toList ∨ a = "--file".toList
        · cases rest with
          | nil =>
            rw [args_loop_last rnd fs a d
              (by rcases hf with h | h; exact Or.inr (Or.inr (Or.inl h));
                  exact Or.inr (Or.inr (Or.inr h)))] at h
            exact absurd h (by simp)
          | cons v rest2 =>
            rw [args_loop_file rnd fs a v rest2 d hf] at h
            cases hfs : fs v with
            | missing =>
              rw [file_parse_failed rnd fs v d (Or.inl hfs)] at h
              simp [INCORRECT_FILE] at h
            | unreadable =>
              rw [file_parse_failed rnd fs v d (Or.inr (Or.inl hfs))] at h
              simp [INCORRECT_FILE] at h
            | text content =>
              cases hget : getline content with
              | none =>
                have hc := getline_none content hget
                rw [hc] at hfs
                rw [file_parse_failed rnd fs v d (Or.inr (Or.inr hfs))] at h
                simp [INCORRECT_FILE] at h
              | some buf =>
                rw [file_parse_text rnd fs v content buf d hfs hget] at h
                by_cases hr0 : (range_parse_r rnd (c_str buf) d).1 = 0
                · simp only [hr0, ne_eq, not_true_eq_false, if_false] at h
                  have hlen2 : rest2.length ≤ n := by
                    simp only [List.length_cons] at hlen; omega
                  exact accepted.file a v content buf rest2 d
                    (range_parse_r rnd (c_str buf) d).2 t hf hfs hget (Prod.ext hr0 rfl)
                    (ih rest2 _ t hlen2 h)
                · simp only [ne_eq, hr0, not_false_eq_true, if_true] at h
                  exact absurd h (by simp)
        · by_cases hh : a = "-h".toList ∨ a = "--help".toList
          · rw [args_loop_help rnd fs a rest d hh] at h
            exact absurd h (by simp)
          · rw [args_loop_unknown rnd fs a rest d hr hf hh] at h
            exact absurd h (by simp)

/-- The scan passes over well-formed pairs. -/
theorem args_loop_skip (rnd : ℚ → xreal) (fs : List Char → file) (pre rest : List (List Char))
    (d d2 : xrange) (h : accepted rnd fs pre d d2) :
    args_loop rnd fs (pre ++ rest) d = args_loop rnd fs rest d2 := by
  induction h with
  | done d => rfl
  | range a v pre d d1 t ha hp _ ih =>
    rw [List.cons_append, List.cons_append, args_loop_range rnd fs a v (pre ++ rest) d ha, hp]
    simp only [ne_eq, not_true_eq_false, if_false]
    exact ih
  | file a v content buf pre d d1 t ha hfs hget hp _ ih =>
    rw [List.cons_append, List.cons_append, args_loop_file rnd fs a v (pre ++ rest) d ha,
      file_parse_text rnd fs v content buf d hfs hget, hp]
    simp only [ne_eq, not_true_eq_false, if_false]
    exact ih

/-- The exit codes of the first argument that ends the scan. -/
theorem args_loop_codes (rnd : ℚ → xreal) (fs : List Char → file) (d : xrange) :
    (∀ (a v : List Char) (rest : List (List Char)),
        (a = "-r".toList ∨ a = "--range".toList) → (range_parse_r rnd v d).1 = 1 →
        args_loop rnd fs (a :: v :: rest) d = .exit 3)
    ∧ (∀ (a v content buf : List Char) (rest : List (List Char)),
        (a = "-f".toList ∨ a = "--file".toList) →
        fs v = .text content → getline content = some buf →
        (range_parse_r rnd (c_str buf) d).1 = 1 →
        args_loop rnd fs (a :: v :: rest) d = .exit 3)
    ∧ (∀ (a v : List Char) (rest : List (List Char)),
        (a = "-f".toList ∨ a = "--file".toList) →
        (fs v = .missing ∨ fs v = .unreadable ∨ fs v = .text []) →
        args_loop rnd fs (a :: v :: rest) d = .exit 4) := by
  refine ⟨?_, ?_, ?_⟩
  · intro a v rest ha hp
    rw [args_loop_range rnd fs a v rest d ha, hp]; rfl
  · intro a v content buf rest ha hfs hget hp
    rw [args_loop_file rnd fs a v rest d ha, file_parse_text rnd fs v content buf d hfs hget, hp]
    rfl
  · intro a v rest ha hfs
    rw [args_loop_file rnd fs a v rest d ha, file_parse_failed rnd fs v d hfs]; rfl

/-- C11 (exit codes): for every argument vector, every default range, every rounding of
`long double` and all files, `args_parse` scans the arguments after `argv[0]` from left to
right. It passes over every well-formed pair (`-r`/`--range` with a text that `range_parse`
accepts, `-f`/`--file` with a file whose first line `range_parse` accepts), and at the first
argument that is not the start of such a pair the process ends with exit code 1 for a token
that is none of the six options, 2 for `-r`/`--range`/`-f`/`--file` as the last token, 3 for
`-r`/`--range` with a text that `range_parse` rejects and for `-f`/`--file` with a file whose
first line `range_parse` rejects, 4 for `-f`/`--file` with a file that cannot be opened or
from which no line can be read, 0 for `-h`/`--help`. `args_parse` returns exactly when all
arguments are well-formed pairs. -/
theorem args_parse_exit_codes (rnd : ℚ → xreal) (fs : List Char → file) (prog : List Char)
    (d : xrange) :
    (∀ (a : List Char) (rest : List (List Char)),
        ¬ (a = "-r".toList ∨ a = "--range".toList) →
        ¬ (a = "-f".toList ∨ a = "--file".toList) →
        ¬ (a = "-h".toList ∨ a = "--help".toList) →
        args_parse rnd fs (prog :: a :: rest) d = .exit 1)
    ∧ (∀ a : List Char,
        (a = "-r".toList ∨ a = "--range".toList ∨ a = "-f".toList ∨ a = "--file".toList) →
        args_parse rnd fs [prog, a] d = .exit 2)
    ∧ (∀ (a v : List Char) (rest : List (List Char)),
        (a = "-r".toList ∨ a = "--range".toList) → (range_parse_r rnd v d).1 = 1 →
        args_parse rnd fs (prog :: a :: v :: rest) d = .exit 3)
    ∧ (∀ (a v content buf : List Char) (rest : List (List Char)),
        (a = "-f".toList ∨ a = "--file".toList) →
        fs v = .text content → getline content = some buf →
        (range_parse_r rnd (c_str buf) d).1 = 1 →
        args_parse rnd fs (prog :: a :: v :: rest) d = .exit 3)
    ∧ (∀ (a v : List Char) (rest : List (List Char)),
        (a = "-f".toList ∨ a = "--file".toList) →
        (fs v = .missing ∨ fs v = .unreadable ∨ fs v = .text []) →
        args_parse rnd fs (prog :: a :: v :: rest) d = .exit 4)
    ∧ (∀ (a : List Char) (rest : List (List Char)),
        (a = "-h".toList ∨ a = "--help".toList) →
        args_parse rnd fs (prog :: a :: rest) d = .exit 0)
    ∧ (∀ (pre rest : List (List Char)) (d2 : xrange), accepted rnd fs pre d d2 →
        args_parse rnd fs (prog :: (pre ++ rest)) d = args_parse rnd fs (prog :: rest) d2)
    ∧ (∀ (args : List (List Char)) (t : xrange),
        args_parse rnd fs (prog :: args) d = .ret () t ↔ accepted rnd fs args d t)
    ∧ args_parse rnd fs [prog, "-r".toList, "x:abc".toList] d = .exit 3
    ∧ args_parse rnd fs [prog, "-r".toList, "x:nope".toList] d = .exit 3
    ∧ args_parse rnd fs [prog, "-r".toList, "x:inf..1/y:0.5..1".toList, "--zoom".toList] d
        = .exit 1
    ∧ args_parse rnd one_file [prog, "-f".toList, "/nonexistent".toList] d = .exit 4
    ∧ args_parse rnd fs [prog, "--zoom".toList] d = .exit 1
    ∧ args_parse rnd one_file [prog, "-f".toList, "range.txt".toList] d = .exit 3
    ∧ args_parse rnd one_file [prog, "-f".toList, "empty.txt".toList] d = .exit 4 := by
  have hdrop : ∀ l : List (List Char),
      args_parse rnd fs (prog :: l) d = args_loop rnd fs l d := fun _ => rfl
  obtain ⟨hc1, hc2, hc3⟩ := args_loop_codes rnd fs d
  refine ⟨?_, ?_, ?_, ?_, ?_, ?_, ?_, ?_, rfl, rfl, rfl, rfl, rfl, rfl, rfl⟩
  · intro a rest h1 h2 h3
    rw [hdrop, args_loop_unknown rnd fs a rest d h1 h2 h3]; rfl
  · intro a ha
    rw [hdrop, args_loop_last rnd fs a d ha]; rfl
  · intro a v rest ha hp
    rw [hdrop]; exact hc1 a v rest ha hp
  · intro a v content buf rest ha hfs hget hp
    rw [hdrop]; exact hc2 a v content buf rest ha hfs hget hp
  · intro a v rest ha hfs
    rw [hdrop]; exact hc3 a v rest ha hfs
  · intro a rest ha
    rw [hdrop, args_loop_help rnd fs a rest d ha]; rfl
  · intro pre rest d2 hacc
    exact args_loop_skip rnd fs pre rest d d2 hacc
  · intro args t
    exact ⟨accepted_of_ret rnd fs args.length args d t (le_refl _),
      ret_of_accepted rnd fs args d t⟩

theorem args_parse_exit_codes_witness :
    accepted round_ld one_file ["-r".toList, "c:-0.5+0i/w:3".toList]
        (range.toX ⟨-2.5, 1, 0, 0⟩) (range.toX ⟨-2, 1, 0, 0⟩)
      ∧ args_parse round_ld one_file
          ["mandelbrot".toList, "-r".toList, "c:-0.5+0i/w:3".toList] (range.toX ⟨-2.5, 1, 0, 0⟩)
          = .ret () (range.toX ⟨-2, 1, 0, 0⟩)
      ∧ args_parse round_ld one_file
          ["mandelbrot".toList, "-r".toList, "c:-0.5+0i/w:3".toList, "-f".toList]
          (range.toX ⟨-2.5, 1, 0, 0⟩) = .exit 2
      ∧ args_parse round_ld one_file
          ["mandelbrot".toList, "-r".toList, "x:1e".toList] (range.toX ⟨-2.5, 1, 0, 0⟩)
          = .exit 3 := by
  have hp : range_parse_r round_ld "c:-0.5+0i/w:3".toList (range.toX ⟨-2.5, 1, 0, 0⟩)
      = (0, range.toX ⟨-2, 1, 0, 0⟩) := by
    with_unfolding_all rfl
  have hacc : accepted round_ld one_file ["-r".toList, "c:-0.5+0i/w:3".toList]
      (range.toX ⟨-2.5, 1, 0, 0⟩) (range.toX ⟨-2, 1, 0, 0⟩) :=
    accepted.range _ _ _ _ _ _ (Or.inl rfl) hp (accepted.done _)
  have h := args_parse_exit_codes round_ld one_file "mandelbrot".toList
    (range.toX ⟨-2.5, 1, 0, 0⟩)
  refine ⟨hacc, (h.2.2.2.2.2.2.2.1 _ _).2 hacc, ?_, h.2.2.1 _ _ [] (Or.inl rfl) rfl⟩
  have hskip := h.2.2.2.2.2.2.1 ["-r".toList, "c:-0.5+0i/w:3".toList] ["-f".toList] _ hacc
  have hlast := (args_parse_exit_codes round_ld one_file "mandelbrot".toList
    (range.toX ⟨-2, 1, 0, 0⟩)).2.1 "-f".toList (Or.inr (Or.inr (Or.inl rfl)))
  rw [← hlast, ← hskip]
  rfl

end Mandelbrot
